import Mathlib

/-
Verification of the path/URL resolution and normalization module of the
kitchensink-ts repository (the `pathman` module).

Strings are modelled as lists of characters (`Str := List Char`), which
makes every operation executable and decidable on concrete inputs.
JavaScript string primitives used by the source are embedded as follows:
- `String.prototype.split("/")`  -> `splitOnChar '/'` (keeps empty segments,
  `"".split("/") = [""]`, exactly like JS);
- `Array.prototype.join("/")`    -> `joinWithChar '/'`;
- `String.prototype.slice`, `substring`, `startsWith`, `replace` of simple
  regexes -> the corresponding take/drop/takeWhile/dropWhile combinators;
- the package regex and the filename regexes are embedded as deterministic
  matchers; comments at each definition derive the determinisation from the
  backtracking semantics of the original regex.
Functions that `throw` in the source return `Option`/`Except` here, with
`none`/`.error` standing for a raised error.
-/

/-- Strings modelled as lists of characters. -/
abbrev Str := List Char

/-- JS `str.split(c)` for a single-character separator: keeps empty segments,
and `"".split(c) = [""]`. -/
def splitOnChar (c : Char) : Str → List Str
  | [] => [[]]
  | a :: rest =>
    match splitOnChar c rest with
    | s :: ss => if a = c then [] :: s :: ss else (a :: s) :: ss
    | [] => [[]]

/-- JS `segments.join(c)` for a single-character separator. -/
def joinWithChar (c : Char) : List Str → Str
  | [] => []
  | [s] => s
  | s :: rest => s ++ c :: joinWithChar c rest

/-- Auxiliary state-passing loop for `pathToUnixPath`: the boolean records
whether the previous character was a backslash, so that each maximal run of
backslashes (the regex `/\\+/g`) is replaced by a single `'/'`. -/
def pathToUnixPathAux : Bool → Str → Str
  | _, [] => []
  | prevBackslash, c :: rest =>
    if c = '\\' then
      (if prevBackslash then [] else ['/']) ++ pathToUnixPathAux true rest
    else
      c :: pathToUnixPathAux false rest

/-- `pathToUnixPath`: `path.replaceAll(/\\+/g, "/")` — convert windows
directory separators to unix ones. -/
def pathToUnixPath (path : Str) : Str := pathToUnixPathAux false path

/-- The ordered `uri_protocol_and_scheme_mapping` table from the source.
The scheme value is `Option Str` because the TS `UriScheme` union is
`undefined | "local" | "relative" | "file" | "http" | "https" | "data" |
"jsr" | "npm"` (here `none` embeds `undefined`). -/
def uri_protocol_and_scheme_mapping : List (Str × Option Str) :=
  [ ("npm:".toList, some ("npm".toList)),
    ("jsr:".toList, some ("jsr".toList)),
    ("data:".toList, some ("data".toList)),
    ("http://".toList, some ("http".toList)),
    ("https://".toList, some ("https".toList)),
    ("file://".toList, some ("file".toList)),
    ("./".toList, some ("relative".toList)),
    ("../".toList, some ("relative".toList)) ]

/-- The `for`-loop of `getUriScheme`: return the scheme of the first
protocol prefix that the path starts with (early `return`), else signal
fall-through with `none`. -/
def scanSchemeMapping : List (Str × Option Str) → Str → Option (Option Str)
  | [], _ => none
  | (protocol, scheme) :: rest, path =>
    if protocol.isPrefixOf path then some scheme else scanSchemeMapping rest path

/-- `getUriScheme(path)` from the source: empty/falsy input gives
`undefined` (`none`); otherwise the first matching protocol prefix wins;
otherwise `"local"`. -/
def getUriScheme (path : Str) : Option Str :=
  if path = [] then none
  else
    match scanSchemeMapping uri_protocol_and_scheme_mapping path with
    | some scheme => scheme
    | none => some ("local".toList)

/-- The `".."` path segment. -/
def dotdotSeg : Str := "..".toList

/-- The `"."` path segment. -/
def dotSeg : Str := ".".toList

/-- One iteration of the `for (const segment of segments)` loop of
`normalizeUnixPath`: `".."` pops the top of the output stack unless the top
is itself `".."` (then it is pushed), `"."` is dropped, and every other
segment (empty ones included) is pushed. `getLast?`/`dropLast` embed JS
`.at(-1)` and `.pop()`. -/
def normalizeStep (output_segments : List Str) (segment : Str) : List Str :=
  if segment = dotdotSeg then
    if output_segments.getLast? ≠ some dotdotSeg then output_segments.dropLast
    else output_segments ++ [segment]
  else if segment = dotSeg then output_segments
  else output_segments ++ [segment]

/-- The segment-level body of `normalizeUnixPath`: fold the loop over the
segments starting from the sentinel stack `[".."]`, then `shift()` the
sentinel off the front. -/
def normalizeUnixSegments (segments : List Str) : List Str :=
  (segments.foldl normalizeStep [dotdotSeg]).drop 1

/-- `normalizeUnixPath(path)` from the source. -/
def normalizeUnixPath (path : Str) : Str :=
  joinWithChar '/' (normalizeUnixSegments (splitOnChar '/' path))

/-- `normalizePath(path) = normalizeUnixPath(pathToUnixPath(path))`. -/
def normalizePath (path : Str) : Str := normalizeUnixPath (pathToUnixPath path)

/-- ECMAScript `\s` (the whitespace class used by the package regex). -/
def isJsWhitespace (c : Char) : Bool :=
  c == ' ' || c == '\t' || c == '\n' || c == '\x0b' || c == '\x0c' || c == '\r' ||
  c == '\u00A0' || c == '\u1680' ||
  (decide ('\u2000' ≤ c) && decide (c ≤ '\u200A')) ||
  c == '\u2028' || c == '\u2029' || c == '\u202F' || c == '\u205F' ||
  c == '\u3000' || c == '\uFEFF'

/-- ECMAScript line terminators (the characters that `.` does not match). -/
def isLineTerminator (c : Char) : Bool :=
  c == '\n' || c == '\r' || c == '\u2028' || c == '\u2029'

/-- The character class `[^\/\s]` of the package regex (scope and version
characters). -/
def scopeChar (c : Char) : Bool := !(c == '/' || isJsWhitespace c)

/-- The character class `[^@\/\s]` of the package regex (package-name
characters). -/
def pkgChar (c : Char) : Bool := !(c == '@' || c == '/' || isJsWhitespace c)

/-- The class matched by `.` in the package regex (anything that is not a
line terminator; the regex has no `s` flag). -/
def dotAnyChar (c : Char) : Bool := !(isLineTerminator c)

/-- The named capture groups of `package_regex =
`^(?<protocol>npm:|jsr:)(\/*(@(?<scope>[^\/\s]+)\/)?(?<pkg>[^@\/\s]+)(@(?<version>[^\/\s]+))?)?(?<pathname>\/.*)?$`.
A group that did not participate in the match is `none`. -/
structure PkgGroups where
  protocol : Str
  scope : Option Str
  pkg : Option Str
  version : Option Str
  pathname : Option Str
deriving DecidableEq

/-- The tail `(?<pathname>\/.*)?$` of the package regex, applied to the rest
`t` of the input: it succeeds (returning the captured pathname, if any) iff
`t` is empty (group absent, `$` holds) or `t` starts with `'/'` and the rest
of `t` contains no line terminator (so `.*` can reach `$`). -/
def pkgPathnameTail (t : Str) : Option (Option Str) :=
  if t = [] then some none
  else if t.head? = some '/' then
    if (t.drop 1).all dotAnyChar then some (some t) else none
  else none

/-- The part `(?<pkg>[^@\/\s]+)(@(?<version>[^\/\s]+))?(?<pathname>\/.*)?$`
of the package regex, starting at `r2` (after the optional scope group).

Determinisation of the backtracking engine: `pkg` is the maximal `[^@\/\s]+`
run — shrinking it leaves the tail starting with a `[^@\/\s]` character, on
which neither `@`, `(?<pathname>\/...)`, nor `$` can succeed.  Likewise
`version` is the maximal `[^\/\s]+` run after `'@'` — shrinking it leaves
the tail starting with a `[^\/\s]` character (never `'/'` or end), and
dropping the whole version group leaves the tail starting with `'@'`, so
neither helps.  Hence a failure of the tail here is a definitive failure of
the enclosing group. -/
def pkgAfterScope (scope : Option Str) (r2 : Str) :
    Option (Option Str × Option Str × Option Str × Option Str) :=
  let pkg := r2.takeWhile pkgChar
  if pkg = [] then none
  else
    let r3 := r2.dropWhile pkgChar
    if r3.head? = some '@' then
      let r4 := r3.drop 1
      let version := r4.takeWhile scopeChar
      if version = [] then none
      else
        match pkgPathnameTail (r4.dropWhile scopeChar) with
        | some pathname => some (scope, some pkg, some version, pathname)
        | none => none
    else
      match pkgPathnameTail r3 with
      | some pathname => some (scope, some pkg, none, pathname)
      | none => none

/-- The package regex after its protocol alternation, i.e.
`(\/*(@(?<scope>[^\/\s]+)\/)?(?<pkg>...)(@(?<version>...))?)?(?<pathname>\/.*)?$`
applied to the rest `r` of the input.

Determinisation: `\/*` takes the maximal run of slashes — with any shorter
run the next character is `'/'`, on which neither the scope group nor `pkg`
can start; the scope group matches iff the maximal `[^\/\s]+` run after
`'@'` is non-empty and followed by `'/'` (a shorter run is followed by a
`[^\/\s]` character, never `'/'`), and when it fails the scope-absent
alternative dies immediately because `pkg` cannot start at `'@'`.  When the
whole first group fails, the engine falls back to matching
`(?<pathname>\/.*)?$` directly at `r`. -/
def execAfterProtocol (r : Str) :
    Option (Option Str × Option Str × Option Str × Option Str) :=
  let r1 := r.dropWhile (fun c => c == '/')
  let attemptA :=
    if r1.head? = some '@' then
      let r1tail := r1.drop 1
      if r1tail.takeWhile scopeChar = [] then none
      else if (r1tail.dropWhile scopeChar).head? = some '/' then
        pkgAfterScope (some (r1tail.takeWhile scopeChar)) ((r1tail.dropWhile scopeChar).drop 1)
      else none
    else pkgAfterScope none r1
  match attemptA with
  | some groups => some groups
  | none =>
    match pkgPathnameTail r with
    | some pathname => some (none, none, none, pathname)
    | none => none

/-- `package_regex.exec(url_href)?.groups`: try the protocol alternation
`npm:|jsr:` at the anchored start, then the rest of the regex. -/
def packageRegexExec (url_href : Str) : Option PkgGroups :=
  if "npm:".toList.isPrefixOf url_href then
    match execAfterProtocol (url_href.drop 4) with
    | some (scope, pkg, version, pathname) =>
      some ⟨"npm:".toList, scope, pkg, version, pathname⟩
    | none => none
  else if "jsr:".toList.isPrefixOf url_href then
    match execAfterProtocol (url_href.drop 4) with
    | some (scope, pkg, version, pathname) =>
      some ⟨"jsr:".toList, scope, pkg, version, pathname⟩
    | none => none
  else none

/-- The `PackagePseudoUrl` interface from the source. -/
structure PackagePseudoUrl where
  href : Str
  protocol : Str
  scope : Option Str
  pkg : Str
  version : Option Str
  pathname : Str
  host : Str
deriving DecidableEq

/-- The `x ? x : undefined` normalization of the source (`scope_str ?
scope_str : undefined`, `version_str ? version_str : undefined`): turn an
absent or empty capture into `undefined`. -/
def optNonempty (o : Option Str) : Option Str :=
  match o with
  | some s => if s = [] then none else some s
  | none => none

/-- `pathname_str ? pathname_str : sep`: the pathname defaults to `"/"`
when the capture is absent or empty. -/
def pathnameOrSlash (o : Option Str) : Str :=
  match o with
  | some p => if p = [] then ['/'] else p
  | none => ['/']

/-- The `${scope ? "@" + scope + sep : ""}` part of the `host` template. -/
def scopePartOf (scope : Option Str) : Str :=
  match scope with
  | some s => '@' :: s ++ ['/']
  | none => []

/-- The `${version ? "@" + version : ""}` part of the `host` template. -/
def versionPartOf (version : Option Str) : Str :=
  match version with
  | some v => '@' :: v
  | none => []

/-- The `host` template of `parsePackageUrl`:
`` `${scope ? "@" + scope + sep : ""}${pkg}${version ? "@" + version : ""}` ``. -/
def hostOf (scope : Option Str) (pkg : Str) (version : Option Str) : Str :=
  scopePartOf scope ++ pkg ++ versionPartOf version

/-- `parsePackageUrl(url_href)` from the source; `none` embeds the thrown
`Error` (raised when the `protocol` or `pkg` group was not captured). -/
def parsePackageUrl (url_href : Str) : Option PackagePseudoUrl :=
  match packageRegexExec url_href with
  | none => none
  | some groups =>
    match groups.pkg with
    | none => none
    | some pkg =>
      let scope := optNonempty groups.scope
      let version := optNonempty groups.version
      let pathname := pathnameOrSlash groups.pathname
      let host := hostOf scope pkg version
      some { href := groups.protocol ++ '/' :: (host ++ pathname),
             protocol := groups.protocol,
             scope := scope, pkg := pkg, version := version,
             pathname := pathname, host := host }

/-- RFC-3986 scheme characters after the initial ALPHA. -/
def urlSchemeChar (c : Char) : Bool := c.isAlphanum || c == '+' || c == '-' || c == '.'

/-- Modelled from the spec: the "parseable URL" contract of §6 — "output
strings must be accepted by any RFC-3986-compliant URL constructor".  The
`URL` platform constructor is not part of this repository's sources, so we
model acceptability as: the string begins with a scheme
(`ALPHA *( ALPHA / DIGIT / "+" / "-" / "." )`) followed by `':'`. -/
def isParseableUrlString (s : Str) : Bool :=
  match s with
  | [] => false
  | c :: rest => c.isAlpha && ((rest.dropWhile urlSchemeChar).head? == some ':')

/-- The `scheme:` protocol part of a parseable URL string. -/
def urlSchemeOf (s : Str) : Str :=
  match s with
  | [] => []
  | c :: rest => c :: (rest.takeWhile urlSchemeChar) ++ [':']

/-- Modelled from the spec: the platform `URL` object, reduced to the two
properties the module reads (`href` and `protocol`). -/
structure Url where
  href : Str
  protocol : Str
deriving DecidableEq

/-- Modelled from the spec: `new URL(s)` for an absolute URL string — the
platform constructor is not in src/.  It succeeds exactly on strings with a
valid leading scheme; `href` is kept verbatim (percent-encoding and other
WHATWG output normalizations are outside the claims' scope). -/
def newUrl (s : Str) : Option Url :=
  if isParseableUrlString s then some ⟨s, urlSchemeOf s⟩ else none

/-- The WHATWG "shorten a url's path" operation (drop the last segment). -/
def whatwgShorten (path : List Str) : List Str := path.dropLast

/-- Modelled from the spec: the path state of the WHATWG basic URL parser
(as exercised by the placeholder-scheme join of §4.4): `".."` shortens the
path, `"."` is skipped, and when either occurs as the final segment an empty
segment is appended (preserving the trailing slash); other segments are
appended. -/
def whatwgPathProcess (path : List Str) : List Str → List Str
  | [] => path
  | [buffer] =>
    if buffer = dotdotSeg then whatwgShorten path ++ [[]]
    else if buffer = dotSeg then path ++ [[]]
    else path ++ [buffer]
  | buffer :: rest =>
    if buffer = dotdotSeg then whatwgPathProcess (whatwgShorten path) rest
    else if buffer = dotSeg then whatwgPathProcess path rest
    else whatwgPathProcess (path ++ [buffer]) rest

/-- Modelled from the spec: `(new URL(path, "x:" + pathname)).pathname`, the
placeholder-scheme URL join of §4.4 — the `URL` constructor is not in src/.
`base_pathname` starts with `'/'`; when it starts with `"//"` the URL parser
reads an authority (a host, up to the next `'/'`), which is not part of the
base path.  The base's path segments are parsed (with dot normalization),
the last one is shortened away, and `path`'s segments (here always a
`./`/`../`-relative path, as dispatched by the source) are processed on
top. -/
def urlJoinPathname (path : Str) (base_pathname : Str) : Str :=
  let base_tail :=
    if "//".toList.isPrefixOf base_pathname then
      (base_pathname.drop 2).dropWhile (fun c => c != '/')
    else base_pathname
  let baseSegments :=
    if base_tail = [] then []
    else whatwgPathProcess [] (splitOnChar '/' (base_tail.drop 1))
  '/' :: joinWithChar '/' (whatwgPathProcess (whatwgShorten baseSegments) (splitOnChar '/' path))

/-- Modelled from the spec: `new URL(path, base?)` — "delegate directly to
the standard URL-with-base resolution" (§4.4).  An absolute `path` parses on
its own; a non-absolute `path` without a base fails (the `MissingBase`
condition of §7); otherwise `path` is joined onto the base's scheme-relative
part.  Only the success/failure behaviour of this branch is claim-relevant. -/
def newUrlWithBase (path : Str) (base : Option Url) : Option Url :=
  match newUrl path with
  | some u => some u
  | none =>
    match base with
    | none => none
    | some bu =>
      let base_after := bu.href.drop bu.protocol.length
      some ⟨bu.protocol ++
              urlJoinPathname path
                (if base_after.head? = some '/' then base_after else '/' :: base_after),
            bu.protocol⟩

/-- The error conditions of `resolveAsUrl` (§7 error taxonomy): the explicit
unsupported-base throw, the propagated `parsePackageUrl` error, and a
failing `URL` constructor call. -/
inductive ResolveError where
  | unsupportedBaseScheme : ResolveError
  | invalidPackageSpecifier : ResolveError
  | invalidUrl : ResolveError
deriving DecidableEq

instance : DecidableEq (Except ResolveError Url) :=
  fun a b =>
    match a, b with
    | Except.ok x, Except.ok y => decidable_of_iff (x = y) (by simp)
    | Except.error x, Except.error y => decidable_of_iff (x = y) (by simp)
    | Except.ok _, Except.error _ => isFalse (by simp)
    | Except.error _, Except.ok _ => isFalse (by simp)

/-- Wrap an optional `URL` into `Except`, a failed constructor call being a
thrown `TypeError`. -/
def okOrInvalidUrl (u : Option Url) : Except ResolveError Url :=
  match u with
  | some u => Except.ok u
  | none => Except.error ResolveError.invalidUrl

/-- The body of `resolveAsUrl` from the `const path_scheme = ...` line on
(after the base has already been turned into a `URL`): dispatch on the
path's scheme exactly as the source does. -/
def resolveAsUrlCore (path : Str) (base_url : Option Url) : Except ResolveError Url :=
  match getUriScheme path with
  | some scheme =>
    if scheme = "local".toList then okOrInvalidUrl (newUrl ("file://".toList ++ path))
    else if scheme = "jsr".toList ∨ scheme = "npm".toList then
      match parsePackageUrl path with
      | none => Except.error ResolveError.invalidPackageSpecifier
      | some u => okOrInvalidUrl (newUrl u.href)
    else if scheme = "relative".toList then
      match base_url with
      | some bu =>
        if bu.protocol = "jsr:".toList ∨ bu.protocol = "npm:".toList then
          match parsePackageUrl bu.href with
          | none => Except.error ResolveError.invalidPackageSpecifier
          | some b =>
            okOrInvalidUrl (newUrl (b.protocol ++ '/' :: (b.host ++ urlJoinPathname path b.pathname)))
        else okOrInvalidUrl (newUrlWithBase path (some bu))
      | none => okOrInvalidUrl (newUrlWithBase path none)
    else okOrInvalidUrl (newUrl path)
  | none => okOrInvalidUrl (newUrl path)

/-- `resolveAsUrl(path, base?)` from the source, for string bases: the path
is unix-ified; a string base whose scheme is `data` or `relative` raises the
unsupported-base error before anything else; any other string base is
resolved recursively without a base (the recursion depth is one, so it is
inlined here as `resolveAsUrlCore (pathToUnixPath b) none`); then the body
dispatches on the path's scheme. -/
def resolveAsUrl (path : Str) (base : Option Str) : Except ResolveError Url :=
  let p := pathToUnixPath path
  match base with
  | none => resolveAsUrlCore p none
  | some b =>
    let base_scheme := getUriScheme b
    if base_scheme = some ("data".toList) ∨ base_scheme = some ("relative".toList) then
      Except.error ResolveError.unsupportedBaseScheme
    else
      match resolveAsUrlCore (pathToUnixPath b) none with
      | Except.error e => Except.error e
      | Except.ok bu => resolveAsUrlCore p (some bu)

/-- Longest common character-prefix of two strings. -/
def commonPrefixTwo : Str → Str → Str
  | a :: as_, b :: bs => if a = b then a :: commonPrefixTwo as_ bs else []
  | _, _ => []

/-- Modelled from the spec: the `commonPrefix` helper imported from the
repository's `stringman` module, which is not under src/ — "find the
longest common character-prefix of all paths" (§4.5). -/
def commonPrefixAll (paths : List Str) : Str :=
  match paths with
  | [] => []
  | p :: rest => rest.foldl commonPrefixTwo p

/-- `common_prefix.slice(0, common_prefix.lastIndexOf("/") + 1)`: trim a
string back to just after its last `'/'` (empty if it has no `'/'`). -/
def sliceToLastSlash (s : Str) : Str :=
  (s.reverse.dropWhile (fun c => c != '/')).reverse

/-- The `for (const path of paths)` loop of `commonNormalizedUnixPath`: the
first path whose remainder after the common prefix does not start with `'/'`
triggers the trim-and-return; if none does, the common prefix is returned. -/
def commonNormalizedUnixPathLoop (common : Str) : List Str → Str
  | [] => common
  | p :: rest =>
    if (p.drop common.length).head? = some '/' then commonNormalizedUnixPathLoop common rest
    else sliceToLastSlash common

/-- `commonNormalizedUnixPath(paths)` from the source. -/
def commonNormalizedUnixPath (paths : List Str) : Str :=
  commonNormalizedUnixPathLoop (commonPrefixAll paths) paths

/-- `commonPath(paths) = commonNormalizedUnixPath(paths.map(normalizePath))`. -/
def commonPath (paths : List Str) : Str :=
  commonNormalizedUnixPath (paths.map normalizePath)

/-- `parseNormalizedUnixFilename`: `trimStartSlashes(filename_regex.exec(p)?.[0] ?? "")`
with `filename_regex = /\/?[^\/]+$/`.  The regex matches the maximal
trailing run of non-`'/'` characters (with at most one preceding slash,
which `trimStartSlashes` removes), and fails — yielding `""` — when the path
is empty or ends with `'/'`.  The trailing run is computed here by reversal. -/
def parseNormalizedUnixFilename (file_path : Str) : Str :=
  (file_path.reverse.takeWhile (fun c => c != '/')).reverse

/-- Test for the `(?<ext>\.[^\.]+)?$`-shaped remainder of
`basename_and_extname_regex`: a dot followed by one or more non-dot
characters, reaching the end. -/
def extnameOk : Str → Bool
  | '.' :: t => !t.isEmpty && t.all (fun c => c != '.')
  | _ => false

/-- The lazy search of `basename_and_extname_regex =
`^(?<basename>.+?)(?<ext>\.[^\.]+)?$` after the basename has consumed `b`:
at each state the engine first tries the extension group on the remainder
`r` (then the empty extension, which requires `r = []`), and otherwise lets
the lazy `.+?` consume one more character — which must not be a line
terminator, `.` having no `s` flag. -/
def basenameExtSearch (b : Str) : Str → Option (Str × Str)
  | [] => some (b, [])
  | c :: rest =>
    if extnameOk (c :: rest) then some (b, c :: rest)
    else if isLineTerminator c then none
    else basenameExtSearch (b ++ [c]) rest

/-- `parseBasenameAndExtname_FromFilename(filename)` from the source: run
the regex (the lazy `.+?` must consume at least one non-line-terminator
character first); when the regex does not match, the destructuring defaults
give `["", ""]`, and an absent extension group gives `""`. -/
def parseBasenameAndExtname_FromFilename (filename : Str) : Str × Str :=
  match filename with
  | [] => ([], [])
  | c :: rest =>
    if isLineTerminator c then ([], [])
    else (basenameExtSearch [c] rest).getD ([], [])

/-- The `FilepathInfo` interface from the source. -/
structure FilepathInfo where
  path : Str
  dirpath : Str
  dirname : Str
  filename : Str
  basename : Str
  extname : Str
deriving DecidableEq

/-- `parseFilepathInfo(file_path)` from the source:
normalize, split off the trailing filename, and split the filename into
basename and extension; `path.slice(0, -filename.length)` is `take`, and
`dirpath.slice(0, -1)` is `dropLast`. -/
def parseFilepathInfo (file_path : Str) : FilepathInfo :=
  let path := normalizePath file_path
  let filename := parseNormalizedUnixFilename path
  let dirpath := if filename.length > 0 then path.take (path.length - filename.length) else path
  let dirname := parseNormalizedUnixFilename dirpath.dropLast
  let be := parseBasenameAndExtname_FromFilename filename
  { path := path, dirpath := dirpath, dirname := dirname,
    filename := filename, basename := be.1, extname := be.2 }

/-- The sentinel-stack algorithm exactly as claim C1 words it, as a direct
recursion over the segments: seed the stack with a sentinel `".."`, drop
`"."`, on `".."` pop the last segment unless the stack top is itself `".."`
(then push), push everything else; finally remove the leading sentinel and
join with `'/'`. -/
def claimSentinelStack (stack : List Str) : List Str → List Str
  | [] => stack
  | segment :: rest =>
    if segment = dotSeg then claimSentinelStack stack rest
    else if segment = dotdotSeg then
      if stack.getLast? = some dotdotSeg then claimSentinelStack (stack ++ [segment]) rest
      else claimSentinelStack stack.dropLast rest
    else claimSentinelStack (stack ++ [segment]) rest

/-- The sentinel-stack normalization as described by claim C1. -/
def claimNormalizeUnixPath (p : Str) : Str :=
  joinWithChar '/' ((claimSentinelStack [dotdotSeg] (splitOnChar '/' p)).drop 1)

/-- The prefix scan exactly as claim C3 words it: the scheme of the first
prefix in the ordered table that the input starts with, else `"local"`. -/
def claimSchemeScan (path : Str) : Option Str :=
  match uri_protocol_and_scheme_mapping.find? (fun pr => pr.1.isPrefixOf path) with
  | some pr => pr.2
  | none => some ("local".toList)

/-! ## Helper lemmas about `splitOnChar` and `joinWithChar` -/

theorem splitOnChar_ne_nil (c : Char) (l : Str) : splitOnChar c l ≠ [] := by
  induction l with
  | nil => simp [splitOnChar]
  | cons a rest ih =>
    simp only [splitOnChar]
    match h : splitOnChar c rest with
    | [] => exact absurd h ih
    | s :: ss => by_cases hac : a = c <;> simp [hac]

theorem not_mem_of_mem_splitOnChar {c : Char} {l : Str} :
    ∀ s ∈ splitOnChar c l, c ∉ s := by
  induction l with
  | nil =>
    intro s hs
    simp [splitOnChar] at hs
    simp [hs]
  | cons a rest ih =>
    intro s hs
    simp only [splitOnChar] at hs
    cases hsplit : splitOnChar c rest with
    | nil => exact absurd hsplit (splitOnChar_ne_nil c rest)
    | cons s0 ss =>
      simp only [hsplit] at hs
      by_cases hac : a = c
      · rw [if_pos hac] at hs
        rcases List.mem_cons.mp hs with h1 | h2
        · simp [h1]
        · exact ih s (hsplit ▸ h2)
      · rw [if_neg hac] at hs
        rcases List.mem_cons.mp hs with h1 | h2
        · subst h1
          intro hmem
          rcases List.mem_cons.mp hmem with h3 | h4
          · exact hac h3.symm
          · exact ih s0 (hsplit ▸ List.mem_cons_self s0 ss) h4
        · exact ih s (hsplit ▸ List.mem_cons_of_mem s0 h2)

theorem mem_of_mem_splitOnChar {c x : Char} {l : Str} :
    ∀ s ∈ splitOnChar c l, x ∈ s → x ∈ l := by
  induction l with
  | nil =>
    intro s hs
    simp [splitOnChar] at hs
    simp [hs]
  | cons a rest ih =>
    intro s hs hx
    simp only [splitOnChar] at hs
    cases hsplit : splitOnChar c rest with
    | nil => exact absurd hsplit (splitOnChar_ne_nil c rest)
    | cons s0 ss =>
      simp only [hsplit] at hs
      by_cases hac : a = c
      · rw [if_pos hac] at hs
        rcases List.mem_cons.mp hs with h1 | h2
        · subst h1; cases hx
        · exact List.mem_cons_of_mem a (ih s (hsplit ▸ h2) hx)
      · rw [if_neg hac] at hs
        rcases List.mem_cons.mp hs with h1 | h2
        · subst h1
          rcases List.mem_cons.mp hx with h3 | h4
          · exact h3 ▸ List.mem_cons_self a rest
          · exact List.mem_cons_of_mem a
              (ih s0 (hsplit ▸ List.mem_cons_self s0 ss) h4)
        · exact List.mem_cons_of_mem a (ih s (hsplit ▸ List.mem_cons_of_mem s0 h2) hx)

theorem splitOnChar_of_not_mem {c : Char} {s : Str} (h : c ∉ s) :
    splitOnChar c s = [s] := by
  induction s with
  | nil => rfl
  | cons a s' ih =>
    have ha : ¬(a = c) := fun h' => h (h' ▸ List.mem_cons_self a s')
    have hs' : c ∉ s' := fun hc => h (List.mem_cons_of_mem a hc)
    simp only [splitOnChar, ih hs', if_neg ha]

theorem splitOnChar_append_cons {c : Char} {s t : Str} (h : c ∉ s) :
    splitOnChar c (s ++ c :: t) = s :: splitOnChar c t := by
  induction s with
  | nil =>
    simp only [List.nil_append, splitOnChar]
    cases hsplit : splitOnChar c t with
    | nil => exact absurd hsplit (splitOnChar_ne_nil c t)
    | cons s0 ss => simp
  | cons a s' ih =>
    have ha : ¬(a = c) := fun h' => h (h' ▸ List.mem_cons_self a s')
    have hs' : c ∉ s' := fun hc => h (List.mem_cons_of_mem a hc)
    simp only [List.cons_append, splitOnChar, List.append_eq, ih hs', if_neg ha]

theorem splitOnChar_joinWithChar {c : Char} :
    ∀ (ls : List Str), ls ≠ [] → (∀ s ∈ ls, c ∉ s) →
      splitOnChar c (joinWithChar c ls) = ls
  | [], h, _ => absurd rfl h
  | [s], _, hmem => by
    simp only [joinWithChar]
    exact splitOnChar_of_not_mem (hmem s (List.mem_cons_self s []))
  | s :: s2 :: rest, _, hmem => by
    show splitOnChar c (s ++ c :: joinWithChar c (s2 :: rest)) = s :: s2 :: rest
    rw [splitOnChar_append_cons (hmem s (List.mem_cons_self s (s2 :: rest)))]
    rw [splitOnChar_joinWithChar (s2 :: rest) (by simp)
      (fun x hx => hmem x (List.mem_cons_of_mem s hx))]

theorem mem_of_mem_joinWithChar {c x : Char} :
    ∀ (ls : List Str), x ∈ joinWithChar c ls → x = c ∨ ∃ s ∈ ls, x ∈ s
  | [], h => by cases h
  | [s], h => Or.inr ⟨s, List.mem_cons_self s [], h⟩
  | s :: s2 :: rest, h => by
    rcases List.mem_append.mp h with h1 | h2
    · exact Or.inr ⟨s, List.mem_cons_self s (s2 :: rest), h1⟩
    · rcases List.mem_cons.mp h2 with h3 | h4
      · exact Or.inl h3
      · rcases mem_of_mem_joinWithChar (s2 :: rest) h4 with h5 | ⟨s', hs', hx⟩
        · exact Or.inl h5
        · exact Or.inr ⟨s', List.mem_cons_of_mem s hs', hx⟩

/-! ## Helper lemmas about the sentinel-stack fold -/

/-- The shape invariant of the `normalizeUnixPath` output stack during the
fold: the sentinel plus a (possibly empty) run of `".."` segments, followed
by segments that are neither `".."` nor `"."`. -/
def SentinelStackShape (st : List Str) : Prop :=
  ∃ k rest, st = List.replicate (k + 1) dotdotSeg ++ rest ∧
    ∀ s ∈ rest, s ≠ dotdotSeg ∧ s ≠ dotSeg

theorem normalizeStep_shape {st : List Str} (h : SentinelStackShape st) (seg : Str) :
    SentinelStackShape (normalizeStep st seg) := by
  obtain ⟨k, rest, hst, hrest⟩ := h
  subst hst
  unfold normalizeStep
  by_cases hdd : seg = dotdotSeg
  · rw [if_pos hdd]
    rcases eq_or_ne rest [] with hnil | hnil
    · subst hnil
      rw [List.append_nil]
      have hlast : (List.replicate (k + 1) dotdotSeg).getLast? = some dotdotSeg := by
        rw [List.replicate_succ' k dotdotSeg, List.getLast?_concat]
      rw [if_neg (by simp [hlast])]
      refine ⟨k + 1, [], ?_, by simp⟩
      rw [List.append_nil, List.replicate_succ' (k + 1) dotdotSeg, hdd]
    · have hlast : (List.replicate (k + 1) dotdotSeg ++ rest).getLast? = rest.getLast? :=
        List.getLast?_append_of_ne_nil _ hnil
      have hlast2 : rest.getLast? ≠ some dotdotSeg := by
        intro hc
        exact (hrest _ (List.mem_of_getLast?_eq_some hc)).1 rfl
      rw [if_pos (by rw [hlast]; exact hlast2)]
      rw [List.dropLast_append_of_ne_nil _ hnil]
      exact ⟨k, rest.dropLast, rfl, fun s hs => hrest s (List.dropLast_subset rest hs)⟩
  · rw [if_neg hdd]
    by_cases hd : seg = dotSeg
    · rw [if_pos hd]
      exact ⟨k, rest, rfl, hrest⟩
    · rw [if_neg hd, List.append_assoc]
      refine ⟨k, rest ++ [seg], rfl, fun s hs => ?_⟩
      rcases List.mem_append.mp hs with h1 | h2
      · exact hrest s h1
      · rcases List.mem_cons.mp h2 with h3 | h4
        · exact h3 ▸ ⟨hdd, hd⟩
        · cases h4

theorem foldl_normalizeStep_shape (segs : List Str) :
    ∀ {st : List Str}, SentinelStackShape st →
      SentinelStackShape (segs.foldl normalizeStep st) := by
  induction segs with
  | nil => intro st h; exact h
  | cons s rest ih =>
    intro st h
    exact ih (normalizeStep_shape h s)

theorem mem_normalizeStep {st : List Str} {seg x : Str}
    (h : x ∈ normalizeStep st seg) : x ∈ st ∨ x = seg := by
  unfold normalizeStep at h
  by_cases hdd : seg = dotdotSeg
  · rw [if_pos hdd] at h
    by_cases hlast : st.getLast? ≠ some dotdotSeg
    · rw [if_pos hlast] at h
      exact Or.inl (List.dropLast_subset st h)
    · rw [if_neg hlast] at h
      rcases List.mem_append.mp h with h1 | h2
      · exact Or.inl h1
      · rcases List.mem_cons.mp h2 with h3 | h4
        · exact Or.inr h3
        · cases h4
  · rw [if_neg hdd] at h
    by_cases hd : seg = dotSeg
    · rw [if_pos hd] at h
      exact Or.inl h
    · rw [if_neg hd] at h
      rcases List.mem_append.mp h with h1 | h2
      · exact Or.inl h1
      · rcases List.mem_cons.mp h2 with h3 | h4
        · exact Or.inr h3
        · cases h4

theorem mem_foldl_normalizeStep (segs : List Str) :
    ∀ {st : List Str} {x : Str},
      x ∈ segs.foldl normalizeStep st → x ∈ st ∨ x ∈ segs := by
  induction segs with
  | nil =>
    intro st x h
    exact Or.inl h
  | cons s rest ih =>
    intro st x h
    rcases ih h with h1 | h2
    · rcases mem_normalizeStep h1 with h3 | h4
      · exact Or.inl h3
      · exact Or.inr (h4 ▸ List.mem_cons_self s rest)
    · exact Or.inr (List.mem_cons_of_mem s h2)

theorem foldl_normalizeStep_replicate (k : Nat) :
    ∀ {st : List Str}, st.getLast? = some dotdotSeg →
      (List.replicate k dotdotSeg).foldl normalizeStep st = st ++ List.replicate k dotdotSeg := by
  induction k with
  | zero => intro st _; simp
  | succ k ih =>
    intro st hlast
    rw [List.replicate_succ, List.foldl_cons]
    have hstep : normalizeStep st dotdotSeg = st ++ [dotdotSeg] := by
      unfold normalizeStep
      rw [if_pos rfl, if_neg (by simp [hlast])]
    rw [hstep, ih (by rw [List.getLast?_concat]), List.append_assoc]
    rfl

theorem foldl_normalizeStep_clean (rest : List Str) :
    ∀ {st : List Str}, (∀ s ∈ rest, s ≠ dotdotSeg ∧ s ≠ dotSeg) →
      rest.foldl normalizeStep st = st ++ rest := by
  induction rest with
  | nil => intro st _; simp
  | cons s rest' ih =>
    intro st hclean
    have hs := hclean s (List.mem_cons_self s rest')
    have hstep : normalizeStep st s = st ++ [s] := by
      unfold normalizeStep
      rw [if_neg hs.1, if_neg hs.2]
    rw [List.foldl_cons, hstep, ih (fun x hx => hclean x (List.mem_cons_of_mem s hx)),
      List.append_assoc]
    rfl

/-- The output segments of `normalizeUnixSegments` applied to any shape-
invariant output are the output itself (the core of idempotence). -/
theorem normalizeUnixSegments_fixed {k : Nat} {rest : List Str}
    (hrest : ∀ s ∈ rest, s ≠ dotdotSeg ∧ s ≠ dotSeg) :
    normalizeUnixSegments (List.replicate k dotdotSeg ++ rest) =
      List.replicate k dotdotSeg ++ rest := by
  unfold normalizeUnixSegments
  rw [List.foldl_append,
    foldl_normalizeStep_replicate k (by simp [dotdotSeg]),
    foldl_normalizeStep_clean rest hrest]
  simp

/-- Every fold of the normalization loop starting from the sentinel stack
has the sentinel-run shape. -/
theorem normalizeUnixSegments_shape (segs : List Str) :
    ∃ k rest, normalizeUnixSegments segs = List.replicate k dotdotSeg ++ rest ∧
      ∀ s ∈ rest, s ≠ dotdotSeg ∧ s ≠ dotSeg := by
  obtain ⟨k, rest, hfold, hrest⟩ :=
    @foldl_normalizeStep_shape segs [dotdotSeg] ⟨0, [], by simp, by simp⟩
  refine ⟨k, rest, ?_, hrest⟩
  unfold normalizeUnixSegments
  rw [hfold, List.replicate_succ, List.cons_append, List.drop_succ_cons, List.drop_zero]

theorem mem_of_mem_normalizeUnixSegments {segs : List Str} {s : Str}
    (h : s ∈ normalizeUnixSegments segs) : s ∈ [dotdotSeg] ∨ s ∈ segs := by
  unfold normalizeUnixSegments at h
  exact mem_foldl_normalizeStep segs (List.drop_subset 1 _ h)

theorem splitOnChar_normalizeUnixPath (p : Str)
    (hnil : normalizeUnixSegments (splitOnChar '/' p) ≠ []) :
    splitOnChar '/' (normalizeUnixPath p) = normalizeUnixSegments (splitOnChar '/' p) := by
  show splitOnChar '/' (joinWithChar '/' (normalizeUnixSegments (splitOnChar '/' p))) = _
  apply splitOnChar_joinWithChar _ hnil
  intro s hs
  rcases mem_of_mem_normalizeUnixSegments hs with h1 | h2
  · rcases List.mem_cons.mp h1 with h3 | h4
    · subst h3; decide
    · cases h4
  · exact not_mem_of_mem_splitOnChar s h2

theorem normalizeUnixPath_idem (p : Str) :
    normalizeUnixPath (normalizeUnixPath p) = normalizeUnixPath p := by
  have hdef : ∀ q : Str, normalizeUnixPath q =
      joinWithChar '/' (normalizeUnixSegments (splitOnChar '/' q)) := fun _ => rfl
  obtain ⟨k, rest, hshape, hrest⟩ := normalizeUnixSegments_shape (splitOnChar '/' p)
  by_cases hnil : normalizeUnixSegments (splitOnChar '/' p) = []
  · have h1 : normalizeUnixPath p = [] := by
      rw [hdef p, hnil]
      rfl
    rw [h1]
    decide
  · rw [hdef (normalizeUnixPath p), splitOnChar_normalizeUnixPath p hnil, hshape,
      normalizeUnixSegments_fixed hrest, ← hshape, ← hdef p]

theorem backslash_not_mem_pathToUnixPathAux (q : Str) :
    ∀ b : Bool, '\\' ∉ pathToUnixPathAux b q := by
  induction q with
  | nil => intro b h; cases h
  | cons c rest ih =>
    intro b h
    unfold pathToUnixPathAux at h
    by_cases hc : c = '\\'
    · rw [if_pos hc] at h
      rcases List.mem_append.mp h with h1 | h2
      · cases b with
        | true => cases h1
        | false =>
          rcases List.mem_cons.mp h1 with h3 | h4
          · cases h3
          · cases h4
      · exact ih true h2
    · rw [if_neg hc] at h
      rcases List.mem_cons.mp h with h1 | h2
      · exact hc h1.symm
      · exact ih false h2

theorem pathToUnixPathAux_no_backslash {q : Str} (h : '\\' ∉ q) (b : Bool) :
    pathToUnixPathAux b q = q := by
  induction q generalizing b with
  | nil => rfl
  | cons c rest ih =>
    have hc : ¬(c = '\\') := fun h' => h (h' ▸ List.mem_cons_self c rest)
    have hrest : '\\' ∉ rest := fun h' => h (List.mem_cons_of_mem c h')
    unfold pathToUnixPathAux
    rw [if_neg hc, ih hrest]

theorem backslash_not_mem_normalizeUnixPath {q : Str} (h : '\\' ∉ q) :
    '\\' ∉ normalizeUnixPath q := by
  intro hmem
  rcases mem_of_mem_joinWithChar _ hmem with h1 | ⟨s, hs, hmem2⟩
  · cases h1
  · rcases mem_of_mem_normalizeUnixSegments hs with h2 | h3
    · rcases List.mem_cons.mp h2 with h4 | h5
      · subst h4; revert hmem2; decide
      · cases h5
    · exact h (mem_of_mem_splitOnChar s h3 hmem2)

theorem normalizeStep_dot (st : List Str) : normalizeStep st dotSeg = st := by
  unfold normalizeStep
  rw [if_neg (by decide : ¬(dotSeg = dotdotSeg)), if_pos rfl]

theorem normalizeStep_dotdot_push {st : List Str} (h : st.getLast? = some dotdotSeg) :
    normalizeStep st dotdotSeg = st ++ [dotdotSeg] := by
  unfold normalizeStep
  rw [if_pos rfl, if_neg (by simp [h])]

theorem normalizeStep_dotdot_pop {st : List Str} (h : ¬(st.getLast? = some dotdotSeg)) :
    normalizeStep st dotdotSeg = st.dropLast := by
  unfold normalizeStep
  rw [if_pos rfl, if_pos h]

theorem normalizeStep_push {st : List Str} {s : Str} (h1 : s ≠ dotdotSeg) (h2 : s ≠ dotSeg) :
    normalizeStep st s = st ++ [s] := by
  unfold normalizeStep
  rw [if_neg h1, if_neg h2]

theorem claimSentinelStack_cons (st : List Str) (s : Str) (rest : List Str) :
    claimSentinelStack st (s :: rest) =
      if s = dotSeg then claimSentinelStack st rest
      else if s = dotdotSeg then
        if st.getLast? = some dotdotSeg then claimSentinelStack (st ++ [s]) rest
        else claimSentinelStack st.dropLast rest
      else claimSentinelStack (st ++ [s]) rest := rfl

theorem foldl_eq_claimSentinelStack (segs : List Str) :
    ∀ st : List Str, segs.foldl normalizeStep st = claimSentinelStack st segs := by
  induction segs with
  | nil => intro st; rfl
  | cons s rest ih =>
    intro st
    rw [List.foldl_cons, ih (normalizeStep st s), claimSentinelStack_cons]
    by_cases hd : s = dotSeg
    · subst hd
      rw [normalizeStep_dot, if_pos rfl]
    · by_cases hdd : s = dotdotSeg
      · subst hdd
        rw [if_neg hd, if_pos rfl]
        by_cases hlast : st.getLast? = some dotdotSeg
        · rw [normalizeStep_dotdot_push hlast, if_pos hlast]
        · rw [normalizeStep_dotdot_pop hlast, if_neg hlast]
      · rw [normalizeStep_push hdd hd, if_neg hd, if_neg hdd]

/-- C1: for every string `p`, `normalizeUnixPath p` equals the result of the
sentinel-stack algorithm (split on `'/'`, seed an output stack with a
sentinel `".."`, drop `"."` segments, on `".."` pop the last segment unless
the stack top is itself `".."` in which case push it, push all other
segments including empty ones, remove the leading sentinel and join with
`'/'`); in particular
`normalizeUnixPath "../helloworld/./temp/../././/hello.txt" =
"../helloworld//hello.txt"`. -/
theorem normalizeUnixPath_eq_sentinel_algorithm :
    (∀ p : Str, normalizeUnixPath p = claimNormalizeUnixPath p) ∧
    normalizeUnixPath ("../helloworld/./temp/../././/hello.txt".toList) =
      "../helloworld//hello.txt".toList := by
  constructor
  · intro p
    unfold normalizeUnixPath claimNormalizeUnixPath normalizeUnixSegments
    rw [foldl_eq_claimSentinelStack]
  · decide

/-- C2: `normalizePath` is idempotent:
`normalizePath (normalizePath p) = normalizePath p` for every string `p`. -/
theorem normalizePath_idempotent (p : Str) :
    normalizePath (normalizePath p) = normalizePath p := by
  unfold normalizePath pathToUnixPath
  rw [pathToUnixPathAux_no_backslash
    (backslash_not_mem_normalizeUnixPath (backslash_not_mem_pathToUnixPathAux p false)) false]
  exact normalizeUnixPath_idem _

/-- C10: when `normalizeUnixPath p` is split on `'/'`, no segment equals
`"."`, and every `".."` segment lies in the leading contiguous run of `".."`
segments (no `".."` follows a non-`".."` segment). -/
theorem normalizeUnixPath_output_shape (p : Str) :
    ∃ k rest, splitOnChar '/' (normalizeUnixPath p) = List.replicate k dotdotSeg ++ rest ∧
      dotdotSeg ∉ rest ∧ ∀ s ∈ splitOnChar '/' (normalizeUnixPath p), s ≠ dotSeg := by
  obtain ⟨k, rest, hshape, hrest⟩ := normalizeUnixSegments_shape (splitOnChar '/' p)
  by_cases hnil : normalizeUnixSegments (splitOnChar '/' p) = []
  · have h1 : normalizeUnixPath p = [] := by
      show joinWithChar '/' (normalizeUnixSegments (splitOnChar '/' p)) = []
      rw [hnil]
      rfl
    refine ⟨0, [[]], ?_, by decide, ?_⟩
    · rw [h1]; rfl
    · rw [h1]; decide
  · rw [splitOnChar_normalizeUnixPath p hnil, hshape]
    refine ⟨k, rest, rfl, ?_, ?_⟩
    · intro h
      exact (hrest _ h).1 rfl
    · intro s hs
      rcases List.mem_append.mp hs with h1 | h2
      · rw [List.eq_of_mem_replicate h1]
        decide
      · exact (hrest s h2).2

/-! ## C3: totality of the scheme detector -/

theorem scanSchemeMapping_eq_find (m : List (Str × Option Str)) (path : Str) :
    scanSchemeMapping m path =
      (m.find? (fun pr => pr.1.isPrefixOf path)).map (fun pr => pr.2) := by
  induction m with
  | nil => rfl
  | cons pr rest ih =>
    obtain ⟨protocol, scheme⟩ := pr
    unfold scanSchemeMapping
    by_cases h : protocol.isPrefixOf path
    · rw [if_pos h, List.find?_cons_of_pos _ (by simpa using h)]
      rfl
    · rw [if_neg h, List.find?_cons_of_neg _ (by simpa using h), ih]

/-- C3: `getUriScheme` is total: the empty (falsy) string maps to
`undefined` (embedded as `none`); a non-empty string maps to the scheme of
the first prefix of the ordered table (`npm:`, `jsr:`, `data:`, `http://`,
`https://`, `file://`, `./`, `../`) that it starts with, or `"local"` when
none matches; consequently the result is always exactly one of the 9
enumerated `UriScheme` values. -/
theorem getUriScheme_total_scan (path : Str) :
    (path = [] → getUriScheme path = none) ∧
    (path ≠ [] → getUriScheme path = claimSchemeScan path) ∧
    getUriScheme path ∈ [none, some ("local".toList), some ("relative".toList),
      some ("file".toList), some ("http".toList), some ("https".toList),
      some ("data".toList), some ("jsr".toList), some ("npm".toList)] := by
  refine ⟨fun h => by rw [getUriScheme, if_pos h], fun h => ?_, ?_⟩
  · unfold getUriScheme claimSchemeScan
    rw [if_neg h, scanSchemeMapping_eq_find]
    cases hfind : uri_protocol_and_scheme_mapping.find? (fun pr => pr.1.isPrefixOf path) with
    | none => rfl
    | some pr => rfl
  · unfold getUriScheme
    by_cases h : path = []
    · rw [if_pos h]
      decide
    · rw [if_neg h, scanSchemeMapping_eq_find]
      cases hfind : uri_protocol_and_scheme_mapping.find? (fun pr => pr.1.isPrefixOf path) with
      | none => decide
      | some pr =>
        have hpr := List.mem_of_find?_eq_some hfind
        fin_cases hpr <;> decide

theorem getUriScheme_total_scan_witness :
    getUriScheme ("npm:foo".toList) = claimSchemeScan ("npm:foo".toList) ∧
    getUriScheme [] = none :=
  ⟨(getUriScheme_total_scan ("npm:foo".toList)).2.1 (by decide),
   (getUriScheme_total_scan []).1 rfl⟩

/-! ## C4: error behaviour of the package parser -/

/-- C4: `parsePackageUrl` raises exactly when the package regex fails to
capture a protocol (no match at all — the `protocol` group participates in
every match) or a package name (`pkg` group absent); in particular
`parsePackageUrl "pnpm:@scope/package@version"` raises, and no successful
parse raises. -/
theorem parsePackageUrl_error_iff (s : Str) :
    (parsePackageUrl s = none ↔
      packageRegexExec s = none ∨
        ∃ g, packageRegexExec s = some g ∧ g.pkg = none) ∧
    parsePackageUrl ("pnpm:@scope/package@version".toList) = none := by
  refine ⟨⟨fun h => ?_, fun h => ?_⟩, by decide⟩
  · cases hexec : packageRegexExec s with
    | none => exact Or.inl rfl
    | some g =>
      cases hpkg : g.pkg with
      | none => exact Or.inr ⟨g, rfl, hpkg⟩
      | some pkg =>
        exfalso
        unfold parsePackageUrl at h
        rw [hexec] at h
        simp only [hpkg] at h
        exact Option.noConfusion h
  · unfold parsePackageUrl
    rcases h with h1 | ⟨g, hg, hpkg⟩
    · rw [h1]
    · rw [hg]
      simp only [hpkg]


theorem takeWhile_run {p : Char → Bool} {u t : Str} (hrun : u.all p = true)
    (htail : ∀ c, t.head? = some c → p c = false) :
    (u ++ t).takeWhile p = u ∧ (u ++ t).dropWhile p = t := by
  induction u with
  | nil =>
    simp only [List.nil_append]
    cases t with
    | nil => exact ⟨rfl, rfl⟩
    | cons c t2 =>
      have hc : ¬(p c = true) := by simp [htail c rfl]
      exact ⟨List.takeWhile_cons_of_neg hc, List.dropWhile_cons_of_neg hc⟩
  | cons a u2 ih =>
    rw [List.all_cons, Bool.and_eq_true] at hrun
    obtain ⟨h1, h2⟩ := ih hrun.2
    refine ⟨?_, ?_⟩
    · rw [List.cons_append, List.takeWhile_cons_of_pos hrun.1, h1]
    · rw [List.cons_append, List.dropWhile_cons_of_pos hrun.1, h2]

theorem pkgPathnameTail_inv {t : Str} {pa : Option Str} (h : pkgPathnameTail t = some pa) :
    ∀ x, pa = some x → x.head? = some '/' ∧ (x.drop 1).all dotAnyChar = true := by
  unfold pkgPathnameTail at h
  by_cases ht : t = []
  · rw [if_pos ht] at h
    injection h with h'
    subst h'
    intro x hx
    cases hx
  · rw [if_neg ht] at h
    by_cases hh : t.head? = some '/'
    · rw [if_pos hh] at h
      by_cases hall : (t.drop 1).all dotAnyChar = true
      · rw [if_pos hall] at h
        injection h with h'
        subst h'
        intro x hx
        injection hx with hx'
        subst hx'
        exact ⟨hh, hall⟩
      · rw [if_neg hall] at h
        cases h
    · rw [if_neg hh] at h
      cases h

theorem pkgPathnameTail_construct {pr : Str} (hpr : pr.all dotAnyChar = true) :
    pkgPathnameTail ('/' :: pr) = some (some ('/' :: pr)) := by
  unfold pkgPathnameTail
  rw [if_neg (by simp), if_pos (show ('/' :: pr).head? = some '/' from rfl),
    if_pos (by simpa using hpr)]

theorem pkgAfterScope_inv {scope : Option Str} {r2 : Str} {sc pk v pa : Option Str}
    (h : pkgAfterScope scope r2 = some (sc, pk, v, pa)) :
    sc = scope ∧
    (pk = some (r2.takeWhile pkgChar) ∧ r2.takeWhile pkgChar ≠ [] ∧
      (r2.takeWhile pkgChar).all pkgChar = true) ∧
    (∀ x, v = some x → x ≠ [] ∧ x.all scopeChar = true) ∧
    (∀ x, pa = some x → x.head? = some '/' ∧ (x.drop 1).all dotAnyChar = true) := by
  simp only [pkgAfterScope] at h
  by_cases h0 : r2.takeWhile pkgChar = []
  · rw [if_pos h0] at h
    cases h
  · rw [if_neg h0] at h
    by_cases hat : (r2.dropWhile pkgChar).head? = some '@'
    · rw [if_pos hat] at h
      by_cases hv : ((r2.dropWhile pkgChar).drop 1).takeWhile scopeChar = []
      · rw [if_pos hv] at h
        cases h
      · rw [if_neg hv] at h
        split at h
        · rename_i po hpo
          injection h with h'
          injection h' with ha hb
          injection hb with hb hc
          injection hc with hc hd
          subst ha
          subst hb
          subst hc
          subst hd
          refine ⟨rfl, ⟨rfl, h0, List.all_takeWhile⟩, ?_, pkgPathnameTail_inv hpo⟩
          intro x hx
          injection hx with hx'
          subst hx'
          exact ⟨hv, List.all_takeWhile⟩
        · cases h
    · rw [if_neg hat] at h
      split at h
      · rename_i po hpo
        injection h with h'
        injection h' with ha hb
        injection hb with hb hc
        injection hc with hc hd
        subst ha
        subst hb
        subst hc
        subst hd
        refine ⟨rfl, ⟨rfl, h0, List.all_takeWhile⟩, ?_, pkgPathnameTail_inv hpo⟩
        intro x hx
        cases hx
      · cases h

theorem execAfterProtocol_inv {r : Str} {sc pk v pa : Option Str}
    (h : execAfterProtocol r = some (sc, pk, v, pa)) :
    (∀ x, sc = some x → x ≠ [] ∧ x.all scopeChar = true) ∧
    (∀ x, pk = some x → x ≠ [] ∧ x.all pkgChar = true) ∧
    (∀ x, v = some x → x ≠ [] ∧ x.all scopeChar = true) ∧
    (∀ x, pa = some x → x.head? = some '/' ∧ (x.drop 1).all dotAnyChar = true) := by
  simp only [execAfterProtocol] at h
  split at h
  · rename_i groups heq
    injection h with h'
    subst h'
    by_cases hat : (r.dropWhile (fun c => c == '/')).head? = some '@'
    · rw [if_pos hat] at heq
      by_cases hsc : ((r.dropWhile (fun c => c == '/')).drop 1).takeWhile scopeChar = []
      · rw [if_pos hsc] at heq
        cases heq
      · rw [if_neg hsc] at heq
        by_cases hsl :
            (((r.dropWhile (fun c => c == '/')).drop 1).dropWhile scopeChar).head? = some '/'
        · rw [if_pos hsl] at heq
          obtain ⟨i1, i2, i3, i4⟩ := pkgAfterScope_inv heq
          refine ⟨?_, ?_, i3, i4⟩
          · intro x hx
            rw [i1] at hx
            injection hx with hx'
            subst hx'
            exact ⟨hsc, List.all_takeWhile⟩
          · intro x hx
            rw [i2.1] at hx
            injection hx with hx'
            subst hx'
            exact ⟨i2.2.1, i2.2.2⟩
        · rw [if_neg hsl] at heq
          cases heq
    · rw [if_neg hat] at heq
      obtain ⟨i1, i2, i3, i4⟩ := pkgAfterScope_inv heq
      refine ⟨?_, ?_, i3, i4⟩
      · intro x hx
        rw [i1] at hx
        cases hx
      · intro x hx
        rw [i2.1] at hx
        injection hx with hx'
        subst hx'
        exact ⟨i2.2.1, i2.2.2⟩
  · rename_i heq
    split at h
    · rename_i po hpo
      injection h with h'
      injection h' with ha hb
      injection hb with hb hc
      injection hc with hc hd
      subst ha
      subst hb
      subst hc
      subst hd
      refine ⟨?_, ?_, ?_, pkgPathnameTail_inv hpo⟩
      · intro x hx; cases hx
      · intro x hx; cases hx
      · intro x hx; cases hx
    · cases h


theorem pkgChar_ne_slash {c : Char} (h : pkgChar c = true) : ¬(c = '/') := by
  intro hc
  subst hc
  exact absurd h (by decide)

theorem pkgChar_ne_at {c : Char} (h : pkgChar c = true) : ¬(c = '@') := by
  intro hc
  subst hc
  exact absurd h (by decide)

theorem pkgAfterScope_construct (scope : Option Str) {pkg : Str} (version : Option Str) {pr : Str}
    (hpkg1 : pkg ≠ []) (hpkg2 : pkg.all pkgChar = true)
    (hver : ∀ x, version = some x → x ≠ [] ∧ x.all scopeChar = true)
    (hpr : pr.all dotAnyChar = true) :
    pkgAfterScope scope (pkg ++ (versionPartOf version ++ '/' :: pr)) =
      some (scope, some pkg, version, some ('/' :: pr)) := by
  cases version with
  | none =>
    simp only [versionPartOf, List.nil_append]
    obtain ⟨ht, hd⟩ := takeWhile_run (p := pkgChar) (t := '/' :: pr) hpkg2
      (fun c hc => by injection hc with hc'; subst hc'; decide)
    simp only [pkgAfterScope]
    rw [ht, hd, if_neg hpkg1,
      if_neg (show ¬(('/' :: pr).head? = some '@') by
        intro hx; injection hx with hx'; exact absurd hx' (by decide)),
      pkgPathnameTail_construct hpr]
  | some v =>
    obtain ⟨hv1, hv2⟩ := hver v rfl
    simp only [versionPartOf]
    rw [List.cons_append]
    obtain ⟨ht, hd⟩ := takeWhile_run (p := pkgChar) (t := '@' :: (v ++ '/' :: pr)) hpkg2
      (fun c hc => by injection hc with hc'; subst hc'; decide)
    simp only [pkgAfterScope]
    rw [ht, hd, if_neg hpkg1,
      if_pos (show ('@' :: (v ++ '/' :: pr)).head? = some '@' from rfl),
      show ('@' :: (v ++ '/' :: pr)).drop 1 = v ++ '/' :: pr from rfl]
    obtain ⟨ht2, hd2⟩ := takeWhile_run (p := scopeChar) (t := '/' :: pr) hv2
      (fun c hc => by injection hc with hc'; subst hc'; decide)
    rw [ht2, hd2, if_neg hv1, pkgPathnameTail_construct hpr]

theorem execAfterProtocol_scope_some {sc X : Str}
    {res : Option Str × Option Str × Option Str × Option Str}
    (hsc1 : sc ≠ []) (hsc2 : sc.all scopeChar = true)
    (hpa : pkgAfterScope (some sc) X = some res) :
    execAfterProtocol ('/' :: (('@' :: sc ++ ['/']) ++ X)) = some res := by
  simp only [execAfterProtocol]
  rw [List.cons_append, List.cons_append,
    List.dropWhile_cons_of_pos (p := fun c => c == '/')
      (show (('/' : Char) == '/') = true from rfl),
    List.dropWhile_cons_of_neg (p := fun c => c == '/')
      (show ¬((('@' : Char) == '/') = true) by decide),
    if_pos (show ('@' :: ((sc ++ ['/']) ++ X)).head? = some '@' from rfl),
    show ('@' :: ((sc ++ ['/']) ++ X)).drop 1 = (sc ++ ['/']) ++ X from rfl,
    List.append_assoc, List.singleton_append]
  obtain ⟨ht, hd⟩ := takeWhile_run (p := scopeChar) (t := '/' :: X) hsc2
    (fun c hc => by injection hc with hc'; subst hc'; decide)
  rw [ht, hd, if_neg hsc1, if_pos (show ('/' :: X).head? = some '/' from rfl),
    show ('/' :: X).drop 1 = X from rfl, hpa]

theorem execAfterProtocol_scope_none {X : Str}
    {res : Option Str × Option Str × Option Str × Option Str}
    (hhead : ∀ c, X.head? = some c → pkgChar c = true)
    (hne : X ≠ [])
    (hpa : pkgAfterScope none X = some res) :
    execAfterProtocol ('/' :: X) = some res := by
  cases X with
  | nil => exact absurd rfl hne
  | cons pc X2 =>
    have hpc : pkgChar pc = true := hhead pc rfl
    simp only [execAfterProtocol]
    rw [List.dropWhile_cons_of_pos (p := fun c => c == '/')
        (show (('/' : Char) == '/') = true from rfl),
      List.dropWhile_cons_of_neg (p := fun c => c == '/')
        (show ¬((pc == '/') = true) by
          intro hb
          rw [beq_iff_eq] at hb
          exact pkgChar_ne_slash hpc hb),
      if_neg (show ¬((pc :: X2).head? = some '@') by
        intro hx
        injection hx with hx'
        exact pkgChar_ne_at hpc hx'),
      hpa]

theorem execAfterProtocol_construct (scope : Option Str) {pkg : Str} (version : Option Str)
    {pr : Str}
    (hscope : ∀ x, scope = some x → x ≠ [] ∧ x.all scopeChar = true)
    (hpkg1 : pkg ≠ []) (hpkg2 : pkg.all pkgChar = true)
    (hver : ∀ x, version = some x → x ≠ [] ∧ x.all scopeChar = true)
    (hpr : pr.all dotAnyChar = true) :
    execAfterProtocol ('/' ::
        (scopePartOf scope ++ (pkg ++ (versionPartOf version ++ '/' :: pr)))) =
      some (scope, some pkg, version, some ('/' :: pr)) := by
  cases scope with
  | none =>
    simp only [scopePartOf, List.nil_append]
    refine execAfterProtocol_scope_none ?_ ?_
      (pkgAfterScope_construct none version hpkg1 hpkg2 hver hpr)
    · intro c hc
      cases pkg with
      | nil => exact absurd rfl hpkg1
      | cons pc pkg2 =>
        rw [List.cons_append, List.head?_cons] at hc
        injection hc with hc'
        subst hc'
        rw [List.all_cons, Bool.and_eq_true] at hpkg2
        exact hpkg2.1
    · intro hx
      rcases List.append_eq_nil.mp hx with ⟨h1, _⟩
      exact hpkg1 h1
  | some sc =>
    obtain ⟨hsc1, hsc2⟩ := hscope sc rfl
    simp only [scopePartOf]
    exact execAfterProtocol_scope_some hsc1 hsc2
      (pkgAfterScope_construct (some sc) version hpkg1 hpkg2 hver hpr)


theorem isPrefixOf_append_self (u t : Str) : u.isPrefixOf (u ++ t) = true := by
  induction u with
  | nil => simp
  | cons a u2 ih => simp [List.isPrefixOf_cons₂, ih]

theorem npm_isPrefixOf_jsr (t : Str) :
    ("npm:".toList).isPrefixOf ("jsr:".toList ++ t) = false := rfl

theorem packageRegexExec_construct {protocol : Str}
    (hp : protocol = "npm:".toList ∨ protocol = "jsr:".toList)
    {rest : Str} {sc pk v pa : Option Str}
    (hexec : execAfterProtocol rest = some (sc, pk, v, pa)) :
    packageRegexExec (protocol ++ rest) = some ⟨protocol, sc, pk, v, pa⟩ := by
  rcases hp with h | h <;> subst h
  · unfold packageRegexExec
    rw [if_pos (isPrefixOf_append_self _ _),
      show ("npm:".toList ++ rest).drop 4 = rest from rfl, hexec]
  · unfold packageRegexExec
    rw [if_neg (show ¬(("npm:".toList).isPrefixOf ("jsr:".toList ++ rest) = true) by
        rw [npm_isPrefixOf_jsr]; exact Bool.false_ne_true),
      if_pos (isPrefixOf_append_self _ _),
      show ("jsr:".toList ++ rest).drop 4 = rest from rfl, hexec]

theorem packageRegexExec_inv {s : Str} {g : PkgGroups} (h : packageRegexExec s = some g) :
    (g.protocol = "npm:".toList ∨ g.protocol = "jsr:".toList) ∧
    (∀ x, g.scope = some x → x ≠ [] ∧ x.all scopeChar = true) ∧
    (∀ x, g.pkg = some x → x ≠ [] ∧ x.all pkgChar = true) ∧
    (∀ x, g.version = some x → x ≠ [] ∧ x.all scopeChar = true) ∧
    (∀ x, g.pathname = some x → x.head? = some '/' ∧ (x.drop 1).all dotAnyChar = true) := by
  unfold packageRegexExec at h
  by_cases h1 : ("npm:".toList).isPrefixOf s = true
  · rw [if_pos h1] at h
    split at h
    · rename_i sc pk v pa heq
      injection h with h2
      subst h2
      obtain ⟨i1, i2, i3, i4⟩ := execAfterProtocol_inv heq
      exact ⟨Or.inl rfl, i1, i2, i3, i4⟩
    · cases h
  · rw [if_neg h1] at h
    by_cases h2 : ("jsr:".toList).isPrefixOf s = true
    · rw [if_pos h2] at h
      split at h
      · rename_i sc pk v pa heq
        injection h with h3
        subst h3
        obtain ⟨i1, i2, i3, i4⟩ := execAfterProtocol_inv heq
        exact ⟨Or.inr rfl, i1, i2, i3, i4⟩
      · cases h
    · rw [if_neg h2] at h
      cases h

theorem isParseableUrlString_protocol {protocol : Str}
    (hp : protocol = "npm:".toList ∨ protocol = "jsr:".toList) (t : Str) :
    isParseableUrlString (protocol ++ t) = true := by
  rcases hp with h | h <;> subst h
  · show isParseableUrlString ('n' :: 'p' :: 'm' :: ':' :: t) = true
    simp only [isParseableUrlString]
    rw [List.dropWhile_cons_of_pos (p := urlSchemeChar) (by decide),
      List.dropWhile_cons_of_pos (p := urlSchemeChar) (by decide),
      List.dropWhile_cons_of_neg (p := urlSchemeChar) (by decide),
      List.head?_cons]
    decide
  · show isParseableUrlString ('j' :: 's' :: 'r' :: ':' :: t) = true
    simp only [isParseableUrlString]
    rw [List.dropWhile_cons_of_pos (p := urlSchemeChar) (by decide),
      List.dropWhile_cons_of_pos (p := urlSchemeChar) (by decide),
      List.dropWhile_cons_of_neg (p := urlSchemeChar) (by decide),
      List.head?_cons]
    decide

theorem urlSchemeOf_protocol {protocol : Str}
    (hp : protocol = "npm:".toList ∨ protocol = "jsr:".toList) (t : Str) :
    urlSchemeOf (protocol ++ t) = protocol := by
  rcases hp with h | h <;> subst h
  · show urlSchemeOf ('n' :: 'p' :: 'm' :: ':' :: t) = "npm:".toList
    simp only [urlSchemeOf]
    rw [List.takeWhile_cons_of_pos (p := urlSchemeChar) (by decide),
      List.takeWhile_cons_of_pos (p := urlSchemeChar) (by decide),
      List.takeWhile_cons_of_neg (p := urlSchemeChar) (by decide)]
    rfl
  · show urlSchemeOf ('j' :: 's' :: 'r' :: ':' :: t) = "jsr:".toList
    simp only [urlSchemeOf]
    rw [List.takeWhile_cons_of_pos (p := urlSchemeChar) (by decide),
      List.takeWhile_cons_of_pos (p := urlSchemeChar) (by decide),
      List.takeWhile_cons_of_neg (p := urlSchemeChar) (by decide)]
    rfl


theorem optNonempty_eq {o : Option Str} (h : ∀ x, o = some x → x ≠ []) :
    optNonempty o = o := by
  cases o with
  | none => rfl
  | some sc => simp only [optNonempty, if_neg (h sc rfl)]

theorem pathnameOrSlash_shape {o : Option Str}
    (h : ∀ x, o = some x → x.head? = some '/' ∧ (x.drop 1).all dotAnyChar = true) :
    ∃ pr, pathnameOrSlash o = '/' :: pr ∧ pr.all dotAnyChar = true := by
  cases o with
  | none => exact ⟨[], rfl, rfl⟩
  | some p =>
    obtain ⟨hp1, hp2⟩ := h p rfl
    cases p with
    | nil => cases hp1
    | cons c pr =>
      rw [List.head?_cons] at hp1
      injection hp1 with hc
      subst hc
      exact ⟨pr, by simp [pathnameOrSlash], hp2⟩

theorem parsePackageUrl_construct {protocol : Str}
    (hp : protocol = "npm:".toList ∨ protocol = "jsr:".toList)
    {scope : Option Str} {pkg : Str} {version : Option Str} {pr : Str}
    (hscope : ∀ x, scope = some x → x ≠ [] ∧ x.all scopeChar = true)
    (hpkg1 : pkg ≠ []) (hpkg2 : pkg.all pkgChar = true)
    (hver : ∀ x, version = some x → x ≠ [] ∧ x.all scopeChar = true)
    (hpr : pr.all dotAnyChar = true) :
    parsePackageUrl (protocol ++ '/' :: (hostOf scope pkg version ++ '/' :: pr)) =
      some { href := protocol ++ '/' :: (hostOf scope pkg version ++ '/' :: pr),
             protocol := protocol, scope := scope, pkg := pkg, version := version,
             pathname := '/' :: pr, host := hostOf scope pkg version } := by
  have hexec : execAfterProtocol ('/' :: (hostOf scope pkg version ++ '/' :: pr)) =
      some (scope, some pkg, version, some ('/' :: pr)) := by
    unfold hostOf
    rw [List.append_assoc, List.append_assoc]
    exact execAfterProtocol_construct scope version hscope hpkg1 hpkg2 hver hpr
  simp only [parsePackageUrl]
  rw [packageRegexExec_construct hp hexec]
  show some ({ href := protocol ++ '/' ::
                 (hostOf (optNonempty scope) pkg (optNonempty version) ++
                   pathnameOrSlash (some ('/' :: pr))),
               protocol := protocol, scope := optNonempty scope, pkg := pkg,
               version := optNonempty version,
               pathname := pathnameOrSlash (some ('/' :: pr)),
               host := hostOf (optNonempty scope) pkg (optNonempty version) } :
      PackagePseudoUrl) = _
  rw [optNonempty_eq (fun x hx => (hscope x hx).1),
    optNonempty_eq (fun x hx => (hver x hx).1),
    show pathnameOrSlash (some ('/' :: pr)) = '/' :: pr by simp [pathnameOrSlash]]

theorem parsePackageUrl_href_idem {s : Str} {u : PackagePseudoUrl}
    (h : parsePackageUrl s = some u) :
    (u.protocol = "npm:".toList ∨ u.protocol = "jsr:".toList) ∧
    (∃ t, u.href = u.protocol ++ t) ∧
    parsePackageUrl u.href = some u := by
  simp only [parsePackageUrl] at h
  split at h
  · cases h
  · rename_i groups hexec
    split at h
    · cases h
    · rename_i pkg hpkg
      obtain ⟨i0, i1, i2, i3, i4⟩ := packageRegexExec_inv hexec
      obtain ⟨hpk1, hpk2⟩ := i2 pkg hpkg
      rw [optNonempty_eq (fun x hx => (i1 x hx).1),
        optNonempty_eq (fun x hx => (i3 x hx).1)] at h
      obtain ⟨pr, hpr_eq, hpr_all⟩ := pathnameOrSlash_shape i4
      rw [hpr_eq] at h
      injection h with h2
      rw [← h2]
      exact ⟨i0, ⟨'/' :: (hostOf groups.scope pkg groups.version ++ '/' :: pr), rfl⟩,
        parsePackageUrl_construct i0 i1 hpk1 hpk2 i3 hpr_all⟩


/-- C5: for every string `s` on which `parsePackageUrl` succeeds with `u`,
the returned `href` is parseable as a URL, re-parsing `href` yields the same
`scope`, `pkg`, `version` and `pathname` (indeed the very same record), and
an empty (non-participating) captured `pathname` normalizes to `"/"`. -/
theorem parsePackageUrl_roundtrip (s : Str) (u : PackagePseudoUrl)
    (h : parsePackageUrl s = some u) :
    isParseableUrlString u.href = true ∧
    (∃ w, parsePackageUrl u.href = some w ∧ w.scope = u.scope ∧ w.pkg = u.pkg ∧
      w.version = u.version ∧ w.pathname = u.pathname) ∧
    (∀ g, packageRegexExec s = some g → g.pathname = none → u.pathname = ['/']) := by
  obtain ⟨hp, ⟨t, ht⟩, hidem⟩ := parsePackageUrl_href_idem h
  refine ⟨?_, ⟨u, hidem, rfl, rfl, rfl, rfl⟩, ?_⟩
  · rw [ht]
    exact isParseableUrlString_protocol hp t
  · intro g hg hpn
    simp only [parsePackageUrl] at h
    rw [hg] at h
    split at h
    · cases h
    · rename_i g2 hg2
      injection hg2 with hg2a
      subst hg2a
      split at h
      · cases h
      · rename_i pkg hpkg
        injection h with h2
        rw [← h2, hpn]
        rfl

theorem parsePackageUrl_roundtrip_witness :
    ∃ u, parsePackageUrl ("npm:@scope/package@ver/a/b.txt".toList) = some u ∧
      isParseableUrlString u.href = true ∧
      (∃ w, parsePackageUrl u.href = some w ∧ w.scope = u.scope ∧ w.pkg = u.pkg ∧
        w.version = u.version ∧ w.pathname = u.pathname) := by
  have h : parsePackageUrl ("npm:@scope/package@ver/a/b.txt".toList) = some
      { href := "npm:/@scope/package@ver/a/b.txt".toList, protocol := "npm:".toList,
        scope := some ("scope".toList), pkg := "package".toList,
        version := some ("ver".toList), pathname := "/a/b.txt".toList,
        host := "@scope/package@ver".toList } := by decide
  obtain ⟨h1, h2, _⟩ := parsePackageUrl_roundtrip _ _ h
  exact ⟨_, h, h1, h2⟩


theorem exists_of_isPrefixOf {u q : Str} (h : u.isPrefixOf q = true) : ∃ t, q = u ++ t := by
  induction u generalizing q with
  | nil => exact ⟨q, rfl⟩
  | cons a u2 ih =>
    cases q with
    | nil => exact Bool.noConfusion h
    | cons b q2 =>
      rw [List.isPrefixOf_cons₂, Bool.and_eq_true] at h
      obtain ⟨t, ht⟩ := ih h.2
      refine ⟨t, ?_⟩
      rw [List.cons_append, ← (beq_iff_eq.mp h.1), ht]

theorem head?_of_isPrefixOf {a : Char} {u q : Str} (h : (a :: u).isPrefixOf q = true) :
    q.head? = some a := by
  cases q with
  | nil => exact Bool.noConfusion h
  | cons b q2 =>
    rw [List.isPrefixOf_cons₂, Bool.and_eq_true] at h
    rw [List.head?_cons, beq_iff_eq.mp h.1]

theorem scanSchemeMapping_cons (pr : Str × Option Str) (rest : List (Str × Option Str))
    (path : Str) :
    scanSchemeMapping (pr :: rest) path =
      if pr.1.isPrefixOf path then some pr.2 else scanSchemeMapping rest path := by
  obtain ⟨protocol, scheme⟩ := pr
  rfl

theorem getUriScheme_cases (q : Str) :
    getUriScheme q = none ∨
    (∃ pr ∈ uri_protocol_and_scheme_mapping,
      getUriScheme q = pr.2 ∧ pr.1.isPrefixOf q = true) ∨
    getUriScheme q = some ("local".toList) := by
  by_cases hq : q = []
  · exact Or.inl (by rw [getUriScheme, if_pos hq])
  · unfold getUriScheme
    rw [if_neg hq, scanSchemeMapping_eq_find]
    cases hfind : uri_protocol_and_scheme_mapping.find? (fun pr => pr.1.isPrefixOf q) with
    | none => exact Or.inr (Or.inr rfl)
    | some pr =>
      refine Or.inr (Or.inl ⟨pr, List.mem_of_find?_eq_some hfind, rfl, ?_⟩)
      have := List.find?_some hfind
      simpa using this

theorem getUriScheme_npm_origin {q : Str} (h : getUriScheme q = some ("npm".toList)) :
    ∃ t, q = "npm:".toList ++ t := by
  rcases getUriScheme_cases q with h1 | ⟨pr, hmem, h2, h3⟩ | h1
  · rw [h] at h1; cases h1
  · fin_cases hmem <;> rw [h] at h2
    · exact exists_of_isPrefixOf h3
    all_goals exact absurd h2 (by decide)
  · rw [h] at h1
    exact absurd h1 (by decide)

theorem getUriScheme_jsr_origin {q : Str} (h : getUriScheme q = some ("jsr".toList)) :
    ∃ t, q = "jsr:".toList ++ t := by
  rcases getUriScheme_cases q with h1 | ⟨pr, hmem, h2, h3⟩ | h1
  · rw [h] at h1; cases h1
  · fin_cases hmem <;> rw [h] at h2
    · exact absurd h2 (by decide)
    · exact exists_of_isPrefixOf h3
    all_goals exact absurd h2 (by decide)
  · rw [h] at h1
    exact absurd h1 (by decide)

theorem getUriScheme_relative_origin {q : Str}
    (h : getUriScheme q = some ("relative".toList)) : q.head? = some '.' := by
  rcases getUriScheme_cases q with h1 | ⟨pr, hmem, h2, h3⟩ | h1
  · rw [h] at h1; cases h1
  · fin_cases hmem <;> rw [h] at h2
    · exact absurd h2 (by decide)
    · exact absurd h2 (by decide)
    · exact absurd h2 (by decide)
    · exact absurd h2 (by decide)
    · exact absurd h2 (by decide)
    · exact absurd h2 (by decide)
    · exact head?_of_isPrefixOf h3
    · exact head?_of_isPrefixOf h3
  · rw [h] at h1
    exact absurd h1 (by decide)


theorem pathToUnixPathAux_cons (b : Bool) (c : Char) (rest : Str) :
    pathToUnixPathAux b (c :: rest) =
      if c = '\\' then (if b then [] else ['/']) ++ pathToUnixPathAux true rest
      else c :: pathToUnixPathAux false rest := rfl

theorem pathToUnixPathAux_append_clean {u : Str} (hu : ∀ c ∈ u, ¬(c = '\\')) (t : Str) :
    pathToUnixPathAux false (u ++ t) = u ++ pathToUnixPathAux false t := by
  induction u with
  | nil => rfl
  | cons c u2 ih =>
    rw [List.cons_append, List.cons_append, pathToUnixPathAux_cons,
      if_neg (hu c (List.mem_cons_self c u2)),
      ih (fun x hx => hu x (List.mem_cons_of_mem c hx))]

theorem getUriScheme_npm_head (t : Str) :
    getUriScheme ("npm:".toList ++ t) = some ("npm".toList) := by
  unfold getUriScheme
  rw [if_neg (by simp), show uri_protocol_and_scheme_mapping =
      ("npm:".toList, some ("npm".toList)) ::
        uri_protocol_and_scheme_mapping.tail from rfl,
    scanSchemeMapping_cons, if_pos (isPrefixOf_append_self _ _)]

theorem getUriScheme_jsr_head (t : Str) :
    getUriScheme ("jsr:".toList ++ t) = some ("jsr".toList) := by
  unfold getUriScheme
  rw [if_neg (by simp), show uri_protocol_and_scheme_mapping =
      ("npm:".toList, some ("npm".toList)) :: ("jsr:".toList, some ("jsr".toList)) ::
        (uri_protocol_and_scheme_mapping.tail).tail from rfl,
    scanSchemeMapping_cons,
    if_neg (show ¬(("npm:".toList, some ("npm".toList)).1.isPrefixOf ("jsr:".toList ++ t) = true) by
      rw [show ("npm:".toList, some ("npm".toList)).1 = "npm:".toList from rfl, npm_isPrefixOf_jsr]
      exact Bool.false_ne_true),
    scanSchemeMapping_cons, if_pos (isPrefixOf_append_self _ _)]

theorem packageRegexExec_origin {s : Str} {g : PkgGroups} (h : packageRegexExec s = some g) :
    (∃ t, s = "npm:".toList ++ t) ∨ ∃ t, s = "jsr:".toList ++ t := by
  unfold packageRegexExec at h
  by_cases h1 : ("npm:".toList).isPrefixOf s = true
  · exact Or.inl (exists_of_isPrefixOf h1)
  · rw [if_neg h1] at h
    by_cases h2 : ("jsr:".toList).isPrefixOf s = true
    · exact Or.inr (exists_of_isPrefixOf h2)
    · rw [if_neg h2] at h
      cases h

theorem parsePackageUrl_origin {s : Str} {u : PackagePseudoUrl}
    (h : parsePackageUrl s = some u) :
    (∃ t, s = "npm:".toList ++ t) ∨ ∃ t, s = "jsr:".toList ++ t := by
  unfold parsePackageUrl at h
  split at h
  · cases h
  · rename_i groups hexec
    exact packageRegexExec_origin hexec

theorem newUrl_protocol {proto : Str}
    (hp : proto = "npm:".toList ∨ proto = "jsr:".toList) (t : Str) :
    newUrl (proto ++ t) = some ⟨proto ++ t, proto⟩ := by
  unfold newUrl
  rw [if_pos (isParseableUrlString_protocol hp t), urlSchemeOf_protocol hp t]

theorem newUrl_package {u : PackagePseudoUrl}
    (hp : u.protocol = "npm:".toList ∨ u.protocol = "jsr:".toList)
    (ht : ∃ t, u.href = u.protocol ++ t) :
    newUrl u.href = some ⟨u.href, u.protocol⟩ := by
  obtain ⟨t, ht⟩ := ht
  rw [ht]
  exact newUrl_protocol hp t

theorem newUrl_dot_head {p : Str} (h : p.head? = some '.') : newUrl p = none := by
  cases p with
  | nil => cases h
  | cons c rest =>
    rw [List.head?_cons] at h
    injection h with h2
    subst h2
    unfold newUrl
    rw [if_neg ?hc]
    case hc =>
      intro hc
      have hfa : Char.isAlpha '.' = false := by decide
      simp [isParseableUrlString, hfa] at hc

theorem okOrInvalidUrl_ne_unsupported (o : Option Url) :
    okOrInvalidUrl o ≠ Except.error ResolveError.unsupportedBaseScheme := by
  cases o with
  | none =>
    intro hc
    injection hc with hc2
    cases hc2
  | some u =>
    intro hc
    cases hc

theorem resolveAsUrlCore_ne_unsupported (path : Str) (bu : Option Url) :
    resolveAsUrlCore path bu ≠ Except.error ResolveError.unsupportedBaseScheme := by
  unfold resolveAsUrlCore
  split
  · rename_i scheme hs
    by_cases h1 : scheme = "local".toList
    · rw [if_pos h1]
      exact okOrInvalidUrl_ne_unsupported _
    · rw [if_neg h1]
      by_cases h2 : scheme = "jsr".toList ∨ scheme = "npm".toList
      · rw [if_pos h2]
        split
        · intro hc
          injection hc with hc2
          cases hc2
        · exact okOrInvalidUrl_ne_unsupported _
      · rw [if_neg h2]
        by_cases h3 : scheme = "relative".toList
        · rw [if_pos h3]
          split
          · rename_i bu2
            by_cases h4 : bu2.protocol = "jsr:".toList ∨ bu2.protocol = "npm:".toList
            · rw [if_pos h4]
              split
              · intro hc
                injection hc with hc2
                cases hc2
              · exact okOrInvalidUrl_ne_unsupported _
            · rw [if_neg h4]
              exact okOrInvalidUrl_ne_unsupported _
          · exact okOrInvalidUrl_ne_unsupported _
        · rw [if_neg h3]
          exact okOrInvalidUrl_ne_unsupported _
  · exact okOrInvalidUrl_ne_unsupported _


theorem resolveAsUrlCore_package {q : Str} {pu : PackagePseudoUrl}
    (hq : getUriScheme q = some ("npm".toList) ∨ getUriScheme q = some ("jsr".toList))
    (hparse : parsePackageUrl q = some pu) :
    resolveAsUrlCore q none = Except.ok ⟨pu.href, pu.protocol⟩ := by
  obtain ⟨hp, ht, _⟩ := parsePackageUrl_href_idem hparse
  unfold resolveAsUrlCore
  rcases hq with h | h
  · simp only [h]
    rw [if_neg (show ¬("npm".toList = "local".toList) by decide)]
    simp only [or_true, if_true, hparse]
    rw [newUrl_package hp ht]
    rfl
  · simp only [h]
    rw [if_neg (show ¬("jsr".toList = "local".toList) by decide)]
    simp only [true_or, if_true, hparse]
    rw [newUrl_package hp ht]
    rfl

theorem resolveAsUrlCore_relative_package {p : Str} {bu : Url} {pu : PackagePseudoUrl}
    (hrel : getUriScheme p = some ("relative".toList))
    (hhref : parsePackageUrl bu.href = some pu)
    (hprot : bu.protocol = "jsr:".toList ∨ bu.protocol = "npm:".toList)
    (hp2 : pu.protocol = "npm:".toList ∨ pu.protocol = "jsr:".toList) :
    resolveAsUrlCore p (some bu) =
      Except.ok ⟨pu.protocol ++ '/' :: (pu.host ++ urlJoinPathname p pu.pathname),
                 pu.protocol⟩ := by
  unfold resolveAsUrlCore
  simp only [hrel]
  rw [if_neg (show ¬("relative".toList = "local".toList) by decide),
    if_neg (show ¬("relative".toList = "jsr".toList ∨ "relative".toList = "npm".toList) by decide)]
  simp only [eq_self_iff_true, if_true]
  rw [if_pos hprot]
  simp only [hhref]
  rw [newUrl_protocol hp2 ('/' :: (pu.host ++ urlJoinPathname p pu.pathname))]
  rfl


/-- C6: when `resolveAsUrl` is given a relative path and a base string whose
scheme is `npm`/`jsr`, it parses the base via `parsePackageUrl`, joins the
relative path against the base's pathname through the placeholder-scheme URL
join, and returns the URL `protocol + "/" + host + joined-pathname`; in
particular `resolveAsUrl "./to/file.txt" "npm:react"` equals
`new URL("npm:/react/to/file.txt")`. -/
theorem resolveAsUrl_package_base_join (path b : Str) (pu : PackagePseudoUrl)
    (hrel : getUriScheme (pathToUnixPath path) = some ("relative".toList))
    (hparse : parsePackageUrl (pathToUnixPath b) = some pu)
    (hbs : getUriScheme b = some ("npm".toList) ∨ getUriScheme b = some ("jsr".toList)) :
    resolveAsUrl path (some b) =
      Except.ok ⟨pu.protocol ++ '/' ::
          (pu.host ++ urlJoinPathname (pathToUnixPath path) pu.pathname), pu.protocol⟩ ∧
    (resolveAsUrl ("./to/file.txt".toList) (some ("npm:react".toList)) =
        Except.ok ⟨"npm:/react/to/file.txt".toList, "npm:".toList⟩ ∧
      newUrl ("npm:/react/to/file.txt".toList) =
        some ⟨"npm:/react/to/file.txt".toList, "npm:".toList⟩) := by
  constructor
  · simp only [resolveAsUrl]
    have hbase_not : ¬(getUriScheme b = some ("data".toList) ∨
        getUriScheme b = some ("relative".toList)) := by
      rcases hbs with h | h <;> rw [h] <;> decide
    rw [if_neg hbase_not]
    have hbscheme : getUriScheme (pathToUnixPath b) = some ("npm".toList) ∨
        getUriScheme (pathToUnixPath b) = some ("jsr".toList) := by
      rcases parsePackageUrl_origin hparse with ⟨t, ht⟩ | ⟨t, ht⟩
      · rw [ht]
        exact Or.inl (getUriScheme_npm_head t)
      · rw [ht]
        exact Or.inr (getUriScheme_jsr_head t)
    rw [resolveAsUrlCore_package hbscheme hparse]
    obtain ⟨hp, _, hidem⟩ := parsePackageUrl_href_idem hparse
    exact resolveAsUrlCore_relative_package hrel hidem (Or.symm hp) hp
  · exact ⟨by decide, by decide⟩

theorem resolveAsUrl_package_base_join_witness :
    resolveAsUrl ("./x.txt".toList) (some ("npm:react".toList)) =
      Except.ok ⟨"npm:/react/x.txt".toList, "npm:".toList⟩ := by
  have h := resolveAsUrl_package_base_join ("./x.txt".toList) ("npm:react".toList)
    { href := "npm:/react/".toList, protocol := "npm:".toList, scope := none,
      pkg := "react".toList, version := none, pathname := "/".toList,
      host := "react".toList }
    (by decide) (by decide) (by decide)
  rw [h.1]
  decide

theorem resolveAsUrl_local_path_base_error :
    resolveAsUrl ("C:/file.txt".toList) (some ("./base/".toList)) =
      Except.error ResolveError.unsupportedBaseScheme ∧
    getUriScheme ("C:/file.txt".toList) = some ("local".toList) := by
  decide

/-- C7 (amended): `resolveAsUrl` raises the unsupported-base error whenever
the supplied base string's scheme is `data` or `relative` — regardless of
the path's own scheme — and raises a URL error when the path is relative and
no base is supplied; when a base with any other scheme is supplied, the
unsupported-base error is never raised (though package or URL errors may
still propagate from resolving the base or the path). -/
theorem resolveAsUrl_base_error_conditions (path : Str) (b : Str) :
    ((getUriScheme b = some ("data".toList) ∨ getUriScheme b = some ("relative".toList)) →
      resolveAsUrl path (some b) = Except.error ResolveError.unsupportedBaseScheme) ∧
    (getUriScheme (pathToUnixPath path) = some ("relative".toList) →
      resolveAsUrl path none = Except.error ResolveError.invalidUrl) ∧
    (¬(getUriScheme b = some ("data".toList) ∨ getUriScheme b = some ("relative".toList)) →
      resolveAsUrl path (some b) ≠ Except.error ResolveError.unsupportedBaseScheme) := by
  refine ⟨fun h => ?_, fun h => ?_, fun h => ?_⟩
  · simp only [resolveAsUrl]
    rw [if_pos h]
  · simp only [resolveAsUrl]
    unfold resolveAsUrlCore
    simp only [h]
    rw [if_neg (show ¬("relative".toList = "local".toList) by decide),
      if_neg (show ¬("relative".toList = "jsr".toList ∨ "relative".toList = "npm".toList) by
        decide)]
    simp only [eq_self_iff_true, if_true]
    rw [show newUrlWithBase (pathToUnixPath path) none = none by
      unfold newUrlWithBase
      rw [newUrl_dot_head (getUriScheme_relative_origin h)]]
    rfl
  · simp only [resolveAsUrl]
    rw [if_neg h]
    split
    · rename_i e heq
      intro hc
      injection hc with hc2
      subst hc2
      exact resolveAsUrlCore_ne_unsupported _ _ heq
    · rename_i bu heq
      exact resolveAsUrlCore_ne_unsupported _ _

theorem resolveAsUrl_base_error_conditions_witness :
    resolveAsUrl ("./x".toList) (some ("./b/".toList)) =
      Except.error ResolveError.unsupportedBaseScheme ∧
    resolveAsUrl ("./x".toList) none = Except.error ResolveError.invalidUrl ∧
    resolveAsUrl ("C:/f".toList) (some ("npm:react".toList)) ≠
      Except.error ResolveError.unsupportedBaseScheme :=
  ⟨(resolveAsUrl_base_error_conditions ("./x".toList) ("./b/".toList)).1 (by decide),
   (resolveAsUrl_base_error_conditions ("./x".toList) ("x".toList)).2.1 (by decide),
   (resolveAsUrl_base_error_conditions ("C:/f".toList) ("npm:react".toList)).2.2 (by decide)⟩


/-! ## C8: common-path utilities -/

theorem commonPrefixTwo_cons (a b : Char) (as2 bs : Str) :
    commonPrefixTwo (a :: as2) (b :: bs) =
      if a = b then a :: commonPrefixTwo as2 bs else [] := rfl

theorem commonPrefixTwo_pre_left : ∀ a b : Str, ∃ t, commonPrefixTwo a b ++ t = a
  | [], b => ⟨[], rfl⟩
  | a :: as2, [] => ⟨a :: as2, rfl⟩
  | a :: as2, b :: bs => by
    rw [commonPrefixTwo_cons]
    by_cases h : a = b
    · obtain ⟨t, ht⟩ := commonPrefixTwo_pre_left as2 bs
      exact ⟨t, by rw [if_pos h, List.cons_append, ht]⟩
    · exact ⟨a :: as2, by rw [if_neg h, List.nil_append]⟩

theorem commonPrefixTwo_pre_right : ∀ a b : Str, ∃ t, commonPrefixTwo a b ++ t = b
  | [], b => ⟨b, rfl⟩
  | a :: as2, [] => ⟨[], rfl⟩
  | a :: as2, b :: bs => by
    rw [commonPrefixTwo_cons]
    by_cases h : a = b
    · obtain ⟨t, ht⟩ := commonPrefixTwo_pre_right as2 bs
      exact ⟨t, by rw [if_pos h, List.cons_append, ht, h]⟩
    · exact ⟨b :: bs, by rw [if_neg h, List.nil_append]⟩

theorem commonPrefixTwo_greatest : ∀ (q a b : Str),
    (∃ t, q ++ t = a) → (∃ t, q ++ t = b) → ∃ t, q ++ t = commonPrefixTwo a b := by
  intro q
  induction q with
  | nil => intro a b _ _; exact ⟨commonPrefixTwo a b, List.nil_append _⟩
  | cons x q2 ih =>
    intro a b ⟨ta, ha⟩ ⟨tb, hb⟩
    rw [List.cons_append] at ha hb
    rw [← ha, ← hb, commonPrefixTwo_cons, if_pos rfl]
    obtain ⟨t, ht⟩ := ih (q2 ++ ta) (q2 ++ tb) ⟨ta, rfl⟩ ⟨tb, rfl⟩
    exact ⟨t, by rw [List.cons_append, ht]⟩

theorem pre_trans {q r s : Str} (h1 : ∃ t, q ++ t = r) (h2 : ∃ t, r ++ t = s) :
    ∃ t, q ++ t = s := by
  obtain ⟨t1, ht1⟩ := h1
  obtain ⟨t2, ht2⟩ := h2
  exact ⟨t1 ++ t2, by rw [← List.append_assoc, ht1, ht2]⟩

theorem commonPrefixAll_cons (p : Str) (rest : List Str) :
    commonPrefixAll (p :: rest) = rest.foldl commonPrefixTwo p := rfl

theorem foldl_commonPrefixTwo_pre (rest : List Str) :
    ∀ acc : Str, (∃ t, (rest.foldl commonPrefixTwo acc) ++ t = acc) ∧
      ∀ x ∈ rest, ∃ t, (rest.foldl commonPrefixTwo acc) ++ t = x := by
  induction rest with
  | nil =>
    intro acc
    exact ⟨⟨[], List.append_nil _⟩, by intro x hx; cases hx⟩
  | cons r rest2 ih =>
    intro acc
    rw [List.foldl_cons]
    obtain ⟨h1, h2⟩ := ih (commonPrefixTwo acc r)
    refine ⟨pre_trans h1 (commonPrefixTwo_pre_left acc r), ?_⟩
    intro x hx
    rcases List.mem_cons.mp hx with h3 | h4
    · subst h3
      exact pre_trans h1 (commonPrefixTwo_pre_right acc x)
    · exact h2 x h4

theorem foldl_commonPrefixTwo_greatest (rest : List Str) :
    ∀ acc q : Str, (∃ t, q ++ t = acc) → (∀ x ∈ rest, ∃ t, q ++ t = x) →
      ∃ t, q ++ t = rest.foldl commonPrefixTwo acc := by
  induction rest with
  | nil => intro acc q h1 _; exact h1
  | cons r rest2 ih =>
    intro acc q h1 h2
    exact ih (commonPrefixTwo acc r) q
      (commonPrefixTwo_greatest q acc r h1 (h2 r (List.mem_cons_self r rest2)))
      (fun x hx => h2 x (List.mem_cons_of_mem r hx))

theorem sliceToLastSlash_pre (s : Str) : ∃ t, sliceToLastSlash s ++ t = s := by
  refine ⟨(s.reverse.takeWhile (fun c => c != '/')).reverse, ?_⟩
  unfold sliceToLastSlash
  rw [← List.reverse_append, List.takeWhile_append_dropWhile, List.reverse_reverse]

theorem dropWhile_head_false {p : Char → Bool} {l r : Str} {c : Char}
    (h : l.dropWhile p = c :: r) : p c = false := by
  induction l with
  | nil => cases h
  | cons a l2 ih =>
    rw [List.dropWhile_cons] at h
    by_cases hp : p a = true
    · rw [if_pos hp] at h
      exact ih h
    · rw [if_neg hp] at h
      injection h with h1 h2
      subst h1
      exact Bool.eq_false_iff.mpr hp

theorem sliceToLastSlash_last (s : Str) :
    sliceToLastSlash s = [] ∨ (sliceToLastSlash s).getLast? = some '/' := by
  unfold sliceToLastSlash
  cases hd : s.reverse.dropWhile (fun c => c != '/') with
  | nil => exact Or.inl rfl
  | cons c rest =>
    right
    rw [List.getLast?_reverse, List.head?_cons]
    have hc := dropWhile_head_false hd
    rw [bne_eq_false_iff_eq] at hc
    rw [hc]

theorem cnupLoop_slice {common : Str} :
    ∀ lst : List Str, (∃ p ∈ lst, ¬((p.drop common.length).head? = some '/')) →
      commonNormalizedUnixPathLoop common lst = sliceToLastSlash common := by
  intro lst
  induction lst with
  | nil =>
    intro ⟨p, hp, _⟩
    cases hp
  | cons p rest ih =>
    intro ⟨x, hx, hxc⟩
    unfold commonNormalizedUnixPathLoop
    by_cases hp : (p.drop common.length).head? = some '/'
    · rw [if_pos hp]
      apply ih
      rcases List.mem_cons.mp hx with h1 | h2
      · exact absurd (h1 ▸ hp) hxc
      · exact ⟨x, h2, hxc⟩
    · rw [if_neg hp]

theorem exists_nonslash_remainder {paths : List Str} (hne : paths ≠ []) :
    ∃ p ∈ paths, ¬((p.drop (commonPrefixAll paths).length).head? = some '/') := by
  by_contra hall
  push_neg at hall
  obtain ⟨p0, rest, rfl⟩ : ∃ p0 rest, paths = p0 :: rest := by
    cases paths with
    | nil => exact absurd rfl hne
    | cons p0 rest => exact ⟨p0, rest, rfl⟩
  have hq : ∀ x ∈ p0 :: rest, ∃ t, (commonPrefixAll (p0 :: rest) ++ ['/']) ++ t = x := by
    intro x hx
    have hpre : ∃ t, commonPrefixAll (p0 :: rest) ++ t = x := by
      rw [commonPrefixAll_cons]
      rcases List.mem_cons.mp hx with h1 | h2
      · exact h1 ▸ (foldl_commonPrefixTwo_pre rest p0).1
      · exact (foldl_commonPrefixTwo_pre rest p0).2 x h2
    obtain ⟨t, ht⟩ := hpre
    have hslash := hall x hx
    rw [← ht, List.drop_left] at hslash
    cases t with
    | nil => cases hslash
    | cons c t2 =>
      rw [List.head?_cons] at hslash
      injection hslash with hc
      subst hc
      exact ⟨t2, by rw [List.append_assoc, List.singleton_append, ht]⟩
  obtain ⟨t, ht⟩ := foldl_commonPrefixTwo_greatest rest p0
    (commonPrefixAll (p0 :: rest) ++ ['/'])
    (hq p0 (List.mem_cons_self p0 rest))
    (fun x hx => hq x (List.mem_cons_of_mem p0 hx))
  rw [← commonPrefixAll_cons] at ht
  have hlen := congrArg List.length ht
  rw [List.length_append, List.length_append] at hlen
  simp at hlen
  omega

/-- C8: for a non-empty list of (already normalized, unix-separated) paths,
`commonNormalizedUnixPath` returns the longest common character-prefix
trimmed back to the last `'/'` boundary, so the result never splits a path
segment mid-name: it is `""` or ends with `'/'`, and is a prefix of every
input; lifted through `normalizePath`,
`commonPath ["C:/Hello/World/This/Is/An/Example/Bla.cs", "C:/Hello/Earth/Bla/Bla/Bla"]`
is `"C:/Hello/"`. -/
theorem commonNormalizedUnixPath_spec (paths : List Str) (hne : paths ≠ []) :
    commonNormalizedUnixPath paths = sliceToLastSlash (commonPrefixAll paths) ∧
    (commonNormalizedUnixPath paths = [] ∨
      (commonNormalizedUnixPath paths).getLast? = some '/') ∧
    (∀ p ∈ paths, ∃ t, commonNormalizedUnixPath paths ++ t = p) ∧
    commonPath (["C:/Hello/World/This/Is/An/Example/Bla.cs".toList,
      "C:/Hello/Earth/Bla/Bla/Bla".toList]) = "C:/Hello/".toList := by
  have heq : commonNormalizedUnixPath paths = sliceToLastSlash (commonPrefixAll paths) := by
    unfold commonNormalizedUnixPath
    exact cnupLoop_slice paths (exists_nonslash_remainder hne)
  refine ⟨heq, ?_, ?_, by decide⟩
  · rw [heq]
    exact sliceToLastSlash_last _
  · intro p hp
    rw [heq]
    apply pre_trans (sliceToLastSlash_pre _)
    obtain ⟨p0, rest, rfl⟩ : ∃ p0 rest, paths = p0 :: rest := by
      cases paths with
      | nil => exact absurd rfl hne
      | cons p0 rest => exact ⟨p0, rest, rfl⟩
    rw [commonPrefixAll_cons]
    rcases List.mem_cons.mp hp with h1 | h2
    · exact h1 ▸ (foldl_commonPrefixTwo_pre rest p0).1
    · exact (foldl_commonPrefixTwo_pre rest p0).2 p h2

theorem commonNormalizedUnixPath_spec_witness :
    commonNormalizedUnixPath (["a/b/c".toList, "a/b/d".toList]) =
      sliceToLastSlash (commonPrefixAll (["a/b/c".toList, "a/b/d".toList])) ∧
    ∃ t, commonNormalizedUnixPath (["a/b/c".toList, "a/b/d".toList]) ++ t = "a/b/c".toList := by
  have h := commonNormalizedUnixPath_spec (["a/b/c".toList, "a/b/d".toList]) (by decide)
  exact ⟨h.1, h.2.2.1 ("a/b/c".toList) (by decide)⟩

/-! ## C9: filepath info invariants -/

theorem parseNormalizedUnixFilename_no_slash (s : Str) :
    '/' ∉ parseNormalizedUnixFilename s := by
  intro h
  unfold parseNormalizedUnixFilename at h
  rw [List.mem_reverse] at h
  have h2 := List.mem_takeWhile_imp h
  simp at h2

theorem sliceToLastSlash_filename (s : Str) :
    sliceToLastSlash s ++ parseNormalizedUnixFilename s = s := by
  unfold sliceToLastSlash parseNormalizedUnixFilename
  rw [← List.reverse_append, List.takeWhile_append_dropWhile, List.reverse_reverse]

theorem take_sub_of_append {d f s : Str} (h : d ++ f = s) :
    s.take (s.length - f.length) = d := by
  subst h
  rw [List.length_append]
  have h2 : d.length + f.length - f.length = d.length := by omega
  rw [h2, List.take_left]

theorem parseFilepathInfo_path (p : Str) :
    (parseFilepathInfo p).path = normalizePath p := rfl

theorem parseFilepathInfo_filename (p : Str) :
    (parseFilepathInfo p).filename = parseNormalizedUnixFilename (normalizePath p) := rfl

theorem parseFilepathInfo_basename (p : Str) :
    (parseFilepathInfo p).basename =
      (parseBasenameAndExtname_FromFilename
        (parseNormalizedUnixFilename (normalizePath p))).1 := rfl

theorem parseFilepathInfo_extname (p : Str) :
    (parseFilepathInfo p).extname =
      (parseBasenameAndExtname_FromFilename
        (parseNormalizedUnixFilename (normalizePath p))).2 := rfl

theorem parseFilepathInfo_dirpath (p : Str) :
    (parseFilepathInfo p).dirpath =
      if (parseNormalizedUnixFilename (normalizePath p)).length > 0 then
        (normalizePath p).take
          ((normalizePath p).length -
            (parseNormalizedUnixFilename (normalizePath p)).length)
      else normalizePath p := rfl

theorem parseFilepathInfo_dirpath_slice (p : Str) :
    (parseFilepathInfo p).dirpath = sliceToLastSlash (normalizePath p) := by
  rw [parseFilepathInfo_dirpath]
  by_cases hf : (parseNormalizedUnixFilename (normalizePath p)).length > 0
  · rw [if_pos hf]
    exact take_sub_of_append (sliceToLastSlash_filename (normalizePath p))
  · rw [if_neg hf]
    have hf0 : parseNormalizedUnixFilename (normalizePath p) = [] :=
      List.length_eq_zero.mp (by omega)
    have h2 := sliceToLastSlash_filename (normalizePath p)
    rw [hf0, List.append_nil] at h2
    exact h2.symm

theorem basenameExtSearch_concat : ∀ (r b b2 e : Str),
    basenameExtSearch b r = some (b2, e) → b2 ++ e = b ++ r := by
  intro r
  induction r with
  | nil =>
    intro b b2 e h
    simp only [basenameExtSearch, Option.some.injEq, Prod.mk.injEq] at h
    rw [← h.1, ← h.2]
  | cons c rest ih =>
    intro b b2 e h
    simp only [basenameExtSearch] at h
    split at h
    · injection h with h2
      injection h2 with h3 h4
      rw [← h3, ← h4]
    · split at h
      · cases h
      · have h5 := ih (b ++ [c]) b2 e h
        rw [h5, List.append_assoc, List.singleton_append]

theorem basenameExtSearch_isSome : ∀ (r b : Str),
    (∀ c ∈ r, isLineTerminator c = false) →
    (basenameExtSearch b r).isSome = true := by
  intro r
  induction r with
  | nil => intro b _; rfl
  | cons c rest ih =>
    intro b hall
    simp only [basenameExtSearch]
    split
    · rfl
    · split
      · rename_i hlt
        exact absurd (hall c (List.mem_cons_self c rest)) (by simp [hlt])
      · exact ih (b ++ [c]) (fun x hx => hall x (List.mem_cons_of_mem c hx))

theorem basenameExtSearch_ext_shape : ∀ (r b b2 e : Str),
    basenameExtSearch b r = some (b2, e) → e = [] ∨ extnameOk e = true := by
  intro r
  induction r with
  | nil =>
    intro b b2 e h
    simp only [basenameExtSearch, Option.some.injEq, Prod.mk.injEq] at h
    exact Or.inl h.2.symm
  | cons c rest ih =>
    intro b b2 e h
    simp only [basenameExtSearch] at h
    split at h
    · rename_i hok
      injection h with h2
      injection h2 with h3 h4
      exact Or.inr (h4 ▸ hok)
    · split at h
      · cases h
      · exact ih (b ++ [c]) b2 e h

theorem parseBasenameAndExtname_concat (filename : Str)
    (hall : ∀ c ∈ filename, isLineTerminator c = false) :
    (parseBasenameAndExtname_FromFilename filename).1 ++
      (parseBasenameAndExtname_FromFilename filename).2 = filename := by
  cases filename with
  | nil => rfl
  | cons c rest =>
    simp only [parseBasenameAndExtname_FromFilename]
    rw [if_neg (by simp [hall c (List.mem_cons_self c rest)])]
    have hs := basenameExtSearch_isSome rest [c]
      (fun x hx => hall x (List.mem_cons_of_mem c hx))
    obtain ⟨⟨b2, e⟩, hbe⟩ := Option.isSome_iff_exists.mp hs
    rw [hbe, Option.getD_some]
    have h2 := basenameExtSearch_concat rest [c] b2 e hbe
    rw [List.singleton_append] at h2
    exact h2

theorem parseBasenameAndExtname_ext_shape (filename : Str) :
    (parseBasenameAndExtname_FromFilename filename).2 = [] ∨
      extnameOk (parseBasenameAndExtname_FromFilename filename).2 = true := by
  cases filename with
  | nil => exact Or.inl rfl
  | cons c rest =>
    simp only [parseBasenameAndExtname_FromFilename]
    split
    · exact Or.inl rfl
    · cases hbe : basenameExtSearch [c] rest with
      | none => exact Or.inl rfl
      | some be =>
        rw [Option.getD_some]
        exact basenameExtSearch_ext_shape rest [c] be.1 be.2 (by rw [hbe])

/-- C9 counterexample: for the input `"abc"` the parsed filename is `"abc"`
(non-empty) while `dirpath` is `""`, which neither ends with `'/'` nor equals
the whole path; and for the input `"a\nb.txt"` the basename/extname regex
fails on the newline (the lazy `.+?` cannot cross a line terminator), so
`basename` and `extname` both default to `""` and
`basename ++ extname ≠ filename`. -/
theorem parseFilepathInfo_claim_counterexample :
    (parseFilepathInfo ("abc".toList)).filename ≠ [] ∧
    (parseFilepathInfo ("abc".toList)).dirpath.getLast? ≠ some '/' ∧
    (parseFilepathInfo ("abc".toList)).dirpath ≠ (parseFilepathInfo ("abc".toList)).path ∧
    (parseFilepathInfo ("a\nb.txt".toList)).basename ++
        (parseFilepathInfo ("a\nb.txt".toList)).extname ≠
      (parseFilepathInfo ("a\nb.txt".toList)).filename := by decide

/-- C9 (amended): for every input, `dirpath ++ filename = path`; `dirpath`
is empty or ends with `'/'` (it equals the whole path when `filename` is
empty, but is `""` — not slash-terminated — when the path has no `'/'` at
all); `filename` never contains `'/'`; `basename ++ extname = filename`
whenever the filename contains no line terminator (otherwise the regex
fails and both default to `""`); and `extname` is `""` or a `'.'` followed
by a non-empty run of non-`'.'` characters. -/
theorem parseFilepathInfo_invariants (p : Str) :
    (parseFilepathInfo p).dirpath ++ (parseFilepathInfo p).filename = (parseFilepathInfo p).path ∧
    ((parseFilepathInfo p).dirpath = [] ∨ (parseFilepathInfo p).dirpath.getLast? = some '/') ∧
    ((parseFilepathInfo p).filename = [] →
      (parseFilepathInfo p).dirpath = (parseFilepathInfo p).path) ∧
    '/' ∉ (parseFilepathInfo p).filename ∧
    ((∀ c ∈ (parseFilepathInfo p).filename, isLineTerminator c = false) →
      (parseFilepathInfo p).basename ++ (parseFilepathInfo p).extname =
        (parseFilepathInfo p).filename) ∧
    ((parseFilepathInfo p).extname = [] ∨ extnameOk (parseFilepathInfo p).extname = true) := by
  rw [parseFilepathInfo_path, parseFilepathInfo_filename, parseFilepathInfo_basename,
    parseFilepathInfo_extname, parseFilepathInfo_dirpath_slice]
  refine ⟨sliceToLastSlash_filename (normalizePath p), sliceToLastSlash_last (normalizePath p),
    ?_, parseNormalizedUnixFilename_no_slash (normalizePath p),
    parseBasenameAndExtname_concat (parseNormalizedUnixFilename (normalizePath p)),
    parseBasenameAndExtname_ext_shape (parseNormalizedUnixFilename (normalizePath p))⟩
  intro hf
  have h2 := sliceToLastSlash_filename (normalizePath p)
  rw [hf, List.append_nil] at h2
  exact h2

theorem parseFilepathInfo_invariants_witness :
    (parseFilepathInfo ("a/b.txt".toList)).basename ++
        (parseFilepathInfo ("a/b.txt".toList)).extname =
      (parseFilepathInfo ("a/b.txt".toList)).filename :=
  (parseFilepathInfo_invariants ("a/b.txt".toList)).2.2.2.2.1 (by decide)
